import Mathlib

/-!
# nullrefterm: ring buffer, line index and event loop

A shallow embedding of `src/main.c`: the capacity rounding (`alignull_up2`),
the construction of the triple-mapped data buffer (`data_buffer_create`),
the bounded read from the pseudo-terminal (`pty_read`), the incremental line
indexer (`parse_lines`), the redraw walk (`draw_buffer`) and the event loop of
`run_terminal`.

Conventions of the embedding.

* Addresses (`char *`) and stream offsets / counters (`size_t`) are natural
  numbers.  The 64-bit width of `unsigned long long` / `size_t` is explicit
  where the source depends on it: in `alignull_up2` (the wrapping sum and the
  complement `~mask`) and in the size check of `data_buffer_create`.  The
  counters `bytes_read` and `total_line_count` are not wrapped: the model
  covers streams of fewer than `2 ^ 64` bytes.  Subtractions are the
  truncated ones of the naturals; the invariants show that in reachable
  states none of them truncates.
* A byte is a natural number; `'\n'` is `10`, `'\r'` is `13`.
* The memory of the data buffer is one backing store of `size` physical
  bytes, mapped three times in a row from `base`: address `a` denotes the
  physical byte `(a - base) % size`.
* Results of system calls are inputs of the model.
-/

namespace Nullrefterm

/-! ## Integer limits (`types.h`, LP64) -/

/-- Number of values of the 64-bit types `unsigned long long` and `size_t`. -/
def U64_MOD : Nat := 2 ^ 64

/-- Largest `unsigned long long`, the value of `ULLONG_MAX`. -/
def ULLONG_MAX : Nat := 2 ^ 64 - 1

/-- Largest `size_t`: `EXPR_MAX(aligned_size)` in `data_buffer_create`. -/
def SIZE_MAX : Nat := 2 ^ 64 - 1

/-- Largest `ssize_t`: `EXPR_MAX(bytes_read)` in `pty_read`. -/
def SSIZE_MAX : Nat := 2 ^ 63 - 1

/-- Number of slots of the line ring: `#define LINE_BUFFER_COUNT 80`. -/
def LINE_BUFFER_COUNT : Nat := 80

/-! ## Data model -/

/-- The C `struct RawDataBuffer`: capacity, count of ingested bytes, the base
address of the three mappings, the wrap address and the two cursors. -/
structure RawDataBuffer where
  size : Nat
  bytes_read : Nat
  base : Nat
  wrap : Nat
  read : Nat
  write : Nat

/-- The C `struct TerminalLine`: a range of stream offsets. -/
structure TerminalLine where
  first_byte : Nat
  one_past_last_byte : Nat

/-- The C `struct TerminalLineBuffer`.  The pointer `data` is embedded as the
buffer it points to (the only `RawDataBuffer` of the program); the array
`lines[LINE_BUFFER_COUNT]` is a function of the slot number. -/
structure TerminalLineBuffer where
  data : RawDataBuffer
  total_line_count : Nat
  current_line : Nat
  lines : Nat → TerminalLine

/-- Contents of the backing store, by physical byte number. -/
abbrev Memory := Nat → Nat

/-- The line buffer together with the memory of the data buffer. -/
structure TermState where
  buffer : TerminalLineBuffer
  mem : Memory

/-! ## Small helpers of `main.c` -/

/-- The C function `minull`. -/
def minull (a b : Nat) : Nat := if a < b then a else b

/-- The C function `is_printable`: `(c >= 32) && (c <= 126)`. -/
def is_printable (c : Nat) : Bool := decide (32 ≤ c) && decide (c ≤ 126)

/-- The C function `power_of_2u`: `v && (0 == (v & (v - 1)))`. -/
def power_of_2u (v : Nat) : Bool := decide (v ≠ 0) && decide (v &&& (v - 1) = 0)

/-- The C function `alignull_up2` on `unsigned long long`:
`mask = align - 1; result = (value + (mask - 1)) & ~mask`, every operation
modulo `2 ^ 64`.  The `ASSERT` on `align` compiles to nothing outside debug
builds and is a hypothesis of the theorems. -/
def alignull_up2 (value align : Nat) : Nat :=
  let mask := (align + U64_MOD - 1) % U64_MOD
  let result := ((value + (mask + U64_MOD - 1) % U64_MOD) % U64_MOD) &&& (ULLONG_MAX - mask)
  result

/-! ## `data_buffer_create` -/

/-- The `errno_exit` calls by which `data_buffer_create` ends the process. -/
inductive CreateExit
  | buffer_size
  | memfd_create
  | ftruncate
  | mmap
  | map_first
  | map_second
  | map_third
deriving DecidableEq

/-- What the operating system answers to `data_buffer_create`: the page size
(`sysconf(_SC_PAGESIZE)` cast to `size_t`), whether `memfd_create` and
`ftruncate` succeed, the address of the anonymous reservation (`none` for
`MAP_FAILED`) and whether each of the three fixed mappings succeeds. -/
structure SysEnv where
  page_size : Nat
  memfd_ok : Bool
  ftruncate_ok : Bool
  reserve : Option Nat
  map_first_ok : Bool
  map_second_ok : Bool
  map_third_ok : Bool

/-- The size check of `data_buffer_create`:
`(aligned_size < size) || (aligned_size > EXPR_MAX(aligned_size) / 3)`. -/
def size_check_fails (size aligned_size : Nat) : Bool :=
  decide (aligned_size < size) || decide (aligned_size > SIZE_MAX / 3)

/-- The anonymous reservation `mmap(nullptr, len, ...)`: a mapping of length
zero is refused (`EINVAL`), otherwise the system decides. -/
def sys_mmap_reserve (len : Nat) (answer : Option Nat) : Option Nat :=
  if len = 0 then none else answer

/-- The C function `data_buffer_create`: the buffer it fills in, or the
`errno_exit` it takes. -/
def data_buffer_create (env : SysEnv) (size : Nat) : Except CreateExit RawDataBuffer :=
  let aligned_size := alignull_up2 size env.page_size
  if size_check_fails size aligned_size then .error .buffer_size
  else if !env.memfd_ok then .error .memfd_create
  else if !env.ftruncate_ok then .error .ftruncate
  else
    match sys_mmap_reserve (3 * aligned_size) env.reserve with
    | none => .error .mmap
    | some start =>
      if !env.map_first_ok then .error .map_first
      else if !env.map_second_ok then .error .map_second
      else if !env.map_third_ok then .error .map_third
      else .ok
        { size := aligned_size
          bytes_read := 0
          base := start
          wrap := start + 2 * aligned_size
          read := start
          write := start }

/-! ## `pty_read` -/

/-- The byte count `pty_read` passes to `read`:
`minull(avail, EXPR_MAX(bytes_read))` with `used = write - read` and
`avail = size - used`. -/
def pty_read_count (buffer : RawDataBuffer) : Nat :=
  let used := buffer.write - buffer.read
  let avail := buffer.size - used
  minull avail SSIZE_MAX

/-- The C function `pty_read` on the fields of the buffer; `ret` is the value
returned by `read`.  Gives the return value and the buffer afterwards. -/
def pty_read (buffer : RawDataBuffer) (ret : Int) : Int × RawDataBuffer :=
  if ret < 0 then (ret, buffer)
  else
    let b1 : RawDataBuffer :=
      { buffer with
        bytes_read := buffer.bytes_read + ret.toNat
        write := buffer.write + ret.toNat }
    let b2 : RawDataBuffer :=
      if b1.write ≥ b1.wrap then
        { b1 with read := b1.read - b1.size, write := b1.write - b1.size }
      else b1
    (ret, b2)

/-- Physical byte denoted by an address of the three mappings. -/
def phys (buffer : RawDataBuffer) (addr : Nat) : Nat :=
  (addr - buffer.base) % buffer.size

/-- The byte `*addr`. -/
def load (mem : Memory) (buffer : RawDataBuffer) (addr : Nat) : Nat :=
  mem (phys buffer addr)

/-- Memory after the bytes `bytes` have been stored from address `addr` on. -/
def store_bytes (mem : Memory) (buffer : RawDataBuffer) : Nat → List Nat → Memory
  | _, [] => mem
  | addr, c :: cs => store_bytes (Function.update mem (phys buffer addr) c) buffer (addr + 1) cs

/-- What `read(pty_fd, buffer->write, count)` does: it stores some bytes at
`buffer->write` and returns their number, or it fails and returns `-1`. -/
inductive ReadOutcome
  | bytes (stored : List Nat)
  | error

/-- The value `read` returns. -/
def ReadOutcome.ret : ReadOutcome → Int
  | .bytes stored => (stored.length : Int)
  | .error => -1

/-- The memory after `read` stored its bytes at `buffer->write`. -/
def ReadOutcome.store (o : ReadOutcome) (mem : Memory) (buffer : RawDataBuffer) : Memory :=
  match o with
  | .bytes stored => store_bytes mem buffer buffer.write stored
  | .error => mem

/-- A `read` never stores more bytes than it was asked for. -/
def ReadOutcome.within (o : ReadOutcome) (count : Nat) : Prop :=
  match o with
  | .bytes stored => stored.length ≤ count
  | .error => True

/-- One call `pty_read(pty_fd, &data_buffer)` on the whole state: the system
call stores its bytes, then `pty_read` updates the buffer. -/
def pty_read_step (s : TermState) (o : ReadOutcome) : Int × TermState :=
  let mem1 := o.store s.mem s.buffer.data
  let r := pty_read s.buffer.data o.ret
  (r.1, { buffer := { s.buffer with data := r.2 }, mem := mem1 })

/-! ## `parse_lines` -/

/-- The variables of the loop of `parse_lines`: the line buffer, the local
`current_byte`, the slot the local pointer `line` points at, and (a ghost
variable) the bytes obtained so far from `*data->read++`, in order. -/
structure ParseLoop where
  buffer : TerminalLineBuffer
  current_byte : Nat
  line : Nat
  consumed : List Nat

/-- One iteration of the loop body of `parse_lines`. -/
def parse_lines_body (mem : Memory) (st : ParseLoop) : ParseLoop :=
  let current_byte := st.current_byte + 1
  let lines1 := Function.update st.buffer.lines st.line
    { st.buffer.lines st.line with one_past_last_byte := current_byte }
  let c := load mem st.buffer.data st.buffer.data.read
  let data1 := { st.buffer.data with read := st.buffer.data.read + 1 }
  if c = 10 then
    let total := st.buffer.total_line_count + 1
    let current_line :=
      if st.buffer.current_line + 1 = LINE_BUFFER_COUNT then 0 else st.buffer.current_line + 1
    let lines2 := Function.update lines1 current_line
      { first_byte := current_byte, one_past_last_byte := current_byte }
    { buffer :=
        { data := data1
          total_line_count := total
          current_line := current_line
          lines := lines2 }
      current_byte := current_byte
      line := current_line
      consumed := st.consumed ++ [c] }
  else
    { buffer := { st.buffer with data := data1, lines := lines1 }
      current_byte := current_byte
      line := st.line
      consumed := st.consumed ++ [c] }

/-- The loop `while (data->read < data->write)` of `parse_lines`, at most
`fuel` iterations. -/
def parse_lines_loop (mem : Memory) : Nat → ParseLoop → ParseLoop
  | 0, st => st
  | fuel + 1, st =>
    if st.buffer.data.read < st.buffer.data.write then
      parse_lines_loop mem fuel (parse_lines_body mem st)
    else st

/-- The loop variables of `parse_lines` on entry. -/
def parse_lines_entry (buffer : TerminalLineBuffer) : ParseLoop :=
  let bytes_to_read := buffer.data.write - buffer.data.read
  { buffer := buffer
    current_byte := buffer.data.bytes_read - bytes_to_read
    line := buffer.current_line
    consumed := [] }

/-- The loop variables of `parse_lines` on exit.  Every iteration advances
`read` by one, so `write - read` iterations suffice (`parse_lines_loop_spec`:
the loop condition is false on exit). -/
def parse_lines_run (buffer : TerminalLineBuffer) (mem : Memory) : ParseLoop :=
  parse_lines_loop mem (buffer.data.write - buffer.data.read) (parse_lines_entry buffer)

/-- The C function `parse_lines`. -/
def parse_lines (buffer : TerminalLineBuffer) (mem : Memory) : TerminalLineBuffer :=
  (parse_lines_run buffer mem).buffer

/-- The bytes `parse_lines` reads through `*data->read++`, in order. -/
def parse_lines_reads (buffer : TerminalLineBuffer) (mem : Memory) : List Nat :=
  (parse_lines_run buffer mem).consumed

/-- One call `parse_lines(line_buffer)` on the whole state. -/
def parse_step (s : TermState) : TermState :=
  { s with buffer := parse_lines s.buffer s.mem }

/-- The unread bytes: the contents of the addresses `[read, write)`. -/
def unread (s : TermState) : List Nat :=
  (List.range' s.buffer.data.read (s.buffer.data.write - s.buffer.data.read)).map
    (load s.mem s.buffer.data)

/-! ## Start of `run_terminal` and reachable states -/

/-- The line buffer as `run_terminal` sets it up: a fresh zero-filled
mapping, `data = &data_buffer`, `total_line_count = 1`. -/
def line_buffer_create (data : RawDataBuffer) : TerminalLineBuffer :=
  { data := data
    total_line_count := 1
    current_line := 0
    lines := fun _ => { first_byte := 0, one_past_last_byte := 0 } }

/-- The state once the data buffer and the line buffer exist; the backing
store of a fresh `memfd` is zero-filled. -/
def initial_state (data : RawDataBuffer) : TermState :=
  { buffer := line_buffer_create data, mem := fun _ => 0 }

/-- States reached from a successful `data_buffer_create` by any sequence of
`pty_read` and `parse_lines` calls. -/
inductive Reachable : TermState → Prop
  | create (env : SysEnv) (size : Nat) (data : RawDataBuffer)
      (h : data_buffer_create env size = .ok data) : Reachable (initial_state data)
  | read (s : TermState) (o : ReadOutcome) (hs : Reachable s)
      (ho : o.within (pty_read_count s.buffer.data)) : Reachable (pty_read_step s o).2
  | parse (s : TermState) (hs : Reachable s) : Reachable (parse_step s)

/-! ## `draw_buffer` -/

/-- What `draw_buffer` takes from the X connection: the window width
(`x_connection->width`) and `font->max_advance_width`. -/
structure DrawEnv where
  width : Nat
  max_advance_width : Int

/-- The variables of the inner loop of `draw_buffer`: the locals `first_byte`,
`byte_to_read` and `x_pos`, and (a ghost variable) the reads made so far, each
as the stream offset and the address of the byte read by `*byte_to_read++`. -/
structure DrawLoop where
  first_byte : Nat
  byte_to_read : Nat
  x_pos : Int
  reads : List (Nat × Nat)

/-- One iteration of the inner loop body: read `c = *byte_to_read++`, advance
`x_pos` for a printable byte, reset it for `'\r'`. -/
def draw_line_body (mem : Memory) (data : RawDataBuffer) (env : DrawEnv) (st : DrawLoop) :
    DrawLoop :=
  let c := load mem data st.byte_to_read
  let x_pos : Int :=
    if is_printable c then st.x_pos + env.max_advance_width
    else if c = 13 then 0
    else st.x_pos
  { first_byte := st.first_byte + 1
    byte_to_read := st.byte_to_read + 1
    x_pos := x_pos
    reads := st.reads ++ [(st.first_byte, st.byte_to_read)] }

/-- The inner loop
`while ((first_byte++ < line->one_past_last_byte) && (x_pos < x_connection->width))`,
at most `fuel` iterations. -/
def draw_line_loop (mem : Memory) (data : RawDataBuffer) (env : DrawEnv)
    (one_past_last_byte : Nat) : Nat → DrawLoop → DrawLoop
  | 0, st => st
  | fuel + 1, st =>
    if st.first_byte < one_past_last_byte ∧ st.x_pos < (env.width : Int) then
      draw_line_loop mem data env one_past_last_byte fuel (draw_line_body mem data env st)
    else st

/-- The record of one drawn line: its slot and the reads made for it. -/
structure DrawnLine where
  slot : Nat
  reads : List (Nat × Nat)

/-- What the walk of `draw_buffer` did: the lines drawn, newest first, and the
slot at which it took the `break`, if it did. -/
structure DrawResult where
  drawn : List DrawnLine
  stopped : Option Nat

/-- The test before the `break` of `draw_buffer`:
`data->bytes_read - line->one_past_last_byte >= data->size`. -/
def draw_skips (data : RawDataBuffer) (line : TerminalLine) : Bool :=
  decide (data.bytes_read - line.one_past_last_byte ≥ data.size)

/-- The reads `draw_buffer` makes for one record that it draws. -/
def draw_line (mem : Memory) (data : RawDataBuffer) (env : DrawEnv) (line : TerminalLine) :
    List (Nat × Nat) :=
  let first_byte := line.first_byte
  let offset := data.bytes_read - first_byte
  let clipped : Nat × Nat :=
    if offset > data.size then (data.size, data.bytes_read - data.size)
    else (offset, first_byte)
  let offset := clipped.1
  let first_byte := clipped.2
  let byte_to_read := data.write - offset
  (draw_line_loop mem data env line.one_past_last_byte (line.one_past_last_byte - first_byte)
    { first_byte := first_byte, byte_to_read := byte_to_read, x_pos := 0, reads := [] }).reads

/-- The step of the walk to the next older slot:
`if (current_line) --current_line; else current_line = ARRAY_COUNT(lines->lines) - 1`. -/
def draw_previous (current_line : Nat) : Nat :=
  if current_line ≠ 0 then current_line - 1 else LINE_BUFFER_COUNT - 1

/-- The outer loop of `draw_buffer` with `remaining` iterations left, at the
slot `current_line`. -/
def draw_buffer_loop (mem : Memory) (lines : TerminalLineBuffer) (env : DrawEnv) :
    Nat → Nat → DrawResult
  | 0, _ => { drawn := [], stopped := none }
  | remaining + 1, current_line =>
    let line := lines.lines current_line
    if draw_skips lines.data line then { drawn := [], stopped := some current_line }
    else
      let reads := draw_line mem lines.data env line
      let rest := draw_buffer_loop mem lines env remaining (draw_previous current_line)
      { drawn := { slot := current_line, reads := reads } :: rest.drawn, stopped := rest.stopped }

/-- The number of lines `draw_buffer` sets out to draw (its local `cursor_y`
before the loop): `total_line_count` cast to `unsigned` when `rows` is
greater, else `rows`. -/
def draw_line_count (lines : TerminalLineBuffer) (rows : Nat) : Nat :=
  if rows > lines.total_line_count then lines.total_line_count % 2 ^ 32 else rows

/-- The C function `draw_buffer`, as far as it reads the data buffer and the
line index: which records it draws and which bytes it reads for each.  The
Xft drawing calls and the cursor position it stores read neither. -/
def draw_buffer (s : TermState) (env : DrawEnv) (rows : Nat) : DrawResult :=
  draw_buffer_loop s.mem s.buffer env (draw_line_count s.buffer rows) s.buffer.current_line

/-! ## The event loop of `run_terminal` -/

/-- An X event as `xlib_process_events` tells them apart.  `ConfigureNotify`
carries the new window size and whether the `ioctl` of `terminal_resize`
succeeds; `ClientMessage` carries `message_type` and `data.l[0]`. -/
inductive XEvent
  | ConfigureNotify (width height : Int) (ioctl_ok : Bool)
  | Expose
  | KeyPress
  | ClientMessage (message_type data0 : Nat)
  | Other

/-- The fields of `XlibConnection` the event loop compares and changes. -/
structure XlibConnection where
  width : Nat
  height : Nat

/-- The two atoms `WM_PROTOCOLS` and `WM_DELETE_WINDOW`. -/
structure Atoms where
  WM_PROTOCOLS : Nat
  WM_DELETE_WINDOW : Nat

/-- The `switch` of `xlib_process_events` on one event: the flag `running`
and the connection afterwards, or `none` when `terminal_resize` ends the
process through `errno_exit`. -/
def xlib_process_event (atoms : Atoms) (running : Bool) (x : XlibConnection) :
    XEvent → Option (Bool × XlibConnection)
  | .ConfigureNotify width height ioctl_ok =>
    if width ≠ (x.width : Int) ∨ height ≠ (x.height : Int) then
      if ioctl_ok then
        some (running, { width := (width % 65536).toNat, height := (height % 65536).toNat })
      else none
    else some (running, x)
  | .Expose => some (running, x)
  | .KeyPress => some (running, x)
  | .ClientMessage message_type data0 =>
    if message_type = atoms.WM_PROTOCOLS ∧ data0 = atoms.WM_DELETE_WINDOW then some (false, x)
    else some (running, x)
  | .Other => some (running, x)

/-- The `for` loop of `xlib_process_events` over the events of one
`XPending` answer. -/
def xlib_process_batch (atoms : Atoms) (running : Bool) (x : XlibConnection) :
    List XEvent → Option (Bool × XlibConnection)
  | [] => some (running, x)
  | event :: events =>
    match xlib_process_event atoms running x event with
    | none => none
    | some r => xlib_process_batch atoms r.1 r.2 events

/-- The loop `while (event_count)` of `xlib_process_events`: `queue` lists the
events each successive `XPending` reports; an empty answer (or the end of the
list) is `XPending` returning zero. -/
def xlib_process_queue (atoms : Atoms) (running : Bool) (x : XlibConnection) :
    List (List XEvent) → Option (Bool × XlibConnection)
  | [] => some (running, x)
  | [] :: _ => some (running, x)
  | (event :: events) :: rest =>
    match xlib_process_batch atoms running x (event :: events) with
    | none => none
    | some r => xlib_process_queue atoms r.1 r.2 rest

/-- The C function `xlib_process_events`: `running` starts at 1. -/
def xlib_process_events (atoms : Atoms) (x : XlibConnection) (queue : List (List XEvent)) :
    Option (Bool × XlibConnection) :=
  xlib_process_queue atoms true x queue

/-- One entry of the array `epoll_wait` fills in: the descriptor, and what
`read` delivers if `pty_read` is called for it. -/
structure ReadyFd where
  fd : Int
  outcome : ReadOutcome

/-- What the system delivers during one iteration of the loop of
`run_terminal`: the answer of `epoll_wait` (`none` for `-1`) and the queue of
X events `xlib_process_events` finds at the end of the iteration. -/
structure Round where
  epoll : Option (List ReadyFd)
  xqueue : List (List XEvent)

/-- The state of the loop of `run_terminal`; `reads` is a ghost variable: the
values the calls of `pty_read` returned so far, in order. -/
structure LoopState where
  term : TermState
  x : XlibConnection
  reads : List Int

/-- How the model of the loop ends: `run_terminal` returned, the process was
ended by `errno_exit`, or the delivered rounds are used up and `run_terminal`
waits in `epoll_wait`. -/
inductive LoopEnd
  | returned
  | exited
  | waiting
deriving DecidableEq

/-- The loop `for (int i = 0; i < nfds; ++i)` of `run_terminal`; gives the
local `running` and the state after it.  The call of `draw_buffer` after
`parse_lines` changes neither the buffers nor `running` and is left out. -/
def run_terminal_ready (pty_fd : Int) (running : Bool) (st : LoopState) :
    List ReadyFd → Bool × LoopState
  | [] => (running, st)
  | e :: es =>
    if pty_fd = e.fd then
      let r := pty_read_step st.term e.outcome
      if r.1 > 0 then
        run_terminal_ready pty_fd running
          { st with term := parse_step r.2, reads := st.reads ++ [r.1] } es
      else
        run_terminal_ready pty_fd false
          { st with term := r.2, reads := st.reads ++ [r.1] } es
    else run_terminal_ready pty_fd running st es

/-- The loop `while (running)` of `run_terminal`, entered with `running`
non-zero, over the rounds the system delivers. -/
def run_terminal_loop (atoms : Atoms) (pty_fd : Int) : LoopState → List Round → LoopEnd × LoopState
  | st, [] => (.waiting, st)
  | st, round :: rounds =>
    match round.epoll with
    | none => (.exited, st)
    | some ready =>
      let after_ready := run_terminal_ready pty_fd true st ready
      let st1 := after_ready.2
      -- `running = xlib_process_events(...)` assigns the flag anew
      match xlib_process_events atoms st1.x round.xqueue with
      | none => (.exited, st1)
      | some r =>
        if r.1 then run_terminal_loop atoms pty_fd { st1 with x := r.2 } rounds
        else (.returned, { st1 with x := r.2 })

/-- The C function `run_terminal` from the creation of the data buffer on;
`queue0` is the X queue the first `xlib_process_events` finds.  The other
set-up calls (the line-buffer mapping, the window, `epoll_create`,
`epoll_ctl`) are taken to succeed. -/
def run_terminal (env : SysEnv) (atoms : Atoms) (pty_fd : Int) (queue0 : List (List XEvent))
    (rounds : List Round) : LoopEnd × List Int :=
  match data_buffer_create env 4000 with
  | .error _ => (.exited, [])
  | .ok data =>
    let st : LoopState :=
      { term := initial_state data, x := { width := 0, height := 0 }, reads := [] }
    match xlib_process_events atoms st.x queue0 with
    | none => (.exited, [])
    | some r =>
      if r.1 then
        let e := run_terminal_loop atoms pty_fd { st with x := r.2 } rounds
        (e.1, e.2.reads)
      else (.returned, [])

/-- A system on which `data_buffer_create` succeeds: pages of 4096 bytes,
every call succeeds, the reservation is placed at `start`. -/
def plain_env (start : Nat) : SysEnv :=
  { page_size := 4096
    memfd_ok := true
    ftruncate_ok := true
    reserve := some start
    map_first_ok := true
    map_second_ok := true
    map_third_ok := true }

/-- The data buffer `run_terminal` obtains on the plain system with the
reservation at 65536: capacity 4096 for the 4000 bytes requested. -/
def plain_buffer : RawDataBuffer :=
  { size := 4096, bytes_read := 0, base := 65536, wrap := 65536 + 2 * 4096,
    read := 65536, write := 65536 }

/-- The state after the first `read` delivered the three bytes `h`, line feed,
`i` to the fresh buffer, before `parse_lines` has run. -/
def fed_state : TermState :=
  (pty_read_step (initial_state plain_buffer) (.bytes [104, 10, 105])).2

/-- Descriptor 5 is ready and `read` on it returns 0 (end of stream); the X
queue is empty. -/
def eof_round : Round :=
  { epoll := some [{ fd := 5, outcome := .bytes [] }], xqueue := [] }

/-! ## Invariants -/

/-- The cursor invariant of the data buffer: the capacity is positive, `wrap`
is `base + 2 * size`, the cursors lie in order between `base` and `wrap`, and
the unread length is at most the capacity and at most the bytes ingested. -/
def BufferInv (d : RawDataBuffer) : Prop :=
  0 < d.size ∧ d.wrap = d.base + 2 * d.size ∧ d.base ≤ d.read ∧ d.read ≤ d.write ∧
    d.write < d.wrap ∧ d.write - d.read ≤ d.size ∧ d.write - d.read ≤ d.bytes_read

/-- The stream offset up to which the line index has been built: the bytes
ingested less the unread ones. -/
def parsed_offset (d : RawDataBuffer) : Nat := d.bytes_read - (d.write - d.read)

/-- The invariant of the whole state: the buffer invariant, and no line
record ends beyond the parsed offset. -/
def StateInv (s : TermState) : Prop :=
  BufferInv s.buffer.data ∧
    ∀ i, (s.buffer.lines i).one_past_last_byte ≤ parsed_offset s.buffer.data

/-! ## Rounds of `pty_read` followed by `parse_lines` -/

/-- One `pty_read` followed by one `parse_lines`, as in the loop of
`run_terminal`. -/
def read_parse_step (s : TermState) (o : ReadOutcome) : TermState :=
  parse_step (pty_read_step s o).2

/-- States reached from a successful `data_buffer_create` and the fresh line
buffer by repeating `pty_read` followed by `parse_lines`. -/
inductive ReachablePaired : TermState → Prop
  | create (env : SysEnv) (size : Nat) (data : RawDataBuffer)
      (h : data_buffer_create env size = .ok data) : ReachablePaired (initial_state data)
  | round (s : TermState) (o : ReadOutcome) (hs : ReachablePaired s)
      (ho : o.within (pty_read_count s.buffer.data)) : ReachablePaired (read_parse_step s o)

/-- The state after the chunks of bytes `chunks` were ingested, one
`pty_read` followed by one `parse_lines` for each chunk. -/
def feed (s : TermState) (chunks : List (List Nat)) : TermState :=
  chunks.foldl (fun st B => read_parse_step st (.bytes B)) s

/-- The invariant of the line index, on its parts: the ring `lines`, the slot
`current` of the open record, the count `total` of lines and the stream
offset `offset` up to which the index has been built.  `current` is a slot of
the ring, one less than `total` modulo the ring size; every record has
`first_byte ≤ one_past_last_byte`; the open record ends at `offset`; as long
as the ring has not wrapped, record 0 starts at offset 0; and walking the
ring backward over the records in use, each record starts where the next
older one ends. -/
def RingInv (lines : Nat → TerminalLine) (current total offset : Nat) : Prop :=
  current < LINE_BUFFER_COUNT ∧ 1 ≤ total ∧
    current = (total - 1) % LINE_BUFFER_COUNT ∧
    (∀ i, (lines i).first_byte ≤ (lines i).one_past_last_byte) ∧
    (lines current).one_past_last_byte = offset ∧
    (total ≤ LINE_BUFFER_COUNT → (lines 0).first_byte = 0) ∧
    ∀ j, j + 1 < min total LINE_BUFFER_COUNT →
      (lines ((current + LINE_BUFFER_COUNT - j) % LINE_BUFFER_COUNT)).first_byte =
        (lines ((current + LINE_BUFFER_COUNT - (j + 1)) % LINE_BUFFER_COUNT)).one_past_last_byte

/-- The invariant of the line index of a line buffer. -/
def LineInv (b : TerminalLineBuffer) (offset : Nat) : Prop :=
  RingInv b.lines b.current_line b.total_line_count offset

/-! ## `copy_string` and `pty_open` -/

/-- The variables of the loop of `copy_string`: `count` and the contents of
the destination `dst`, by index. -/
structure CopyLoop where
  count : Nat
  dst : Nat → Nat

/-- The loop `for (; src[count] && (count < len); ++count) dst[count] = src[count]`,
at most `fuel` iterations. -/
def copy_string_loop (src : Nat → Nat) (len : Nat) : Nat → CopyLoop → CopyLoop
  | 0, st => st
  | fuel + 1, st =>
    if src st.count ≠ 0 ∧ st.count < len then
      copy_string_loop src len fuel
        { count := st.count + 1, dst := Function.update st.dst st.count (src st.count) }
    else st

/-- The C function `copy_string`: the count it returns and the destination
afterwards.  `src` and `dst` give the bytes by index.  The loop runs while
`count < len`, so `len` iterations suffice. -/
def copy_string (dst src : Nat → Nat) (len : Nat) : Nat × (Nat → Nat) :=
  let st := copy_string_loop src len len { count := 0, dst := dst }
  let dst1 := if st.count < len then Function.update st.dst st.count 0 else st.dst
  (st.count, dst1)

/-- The `errno_exit` calls by which `pty_open` ends the process. -/
inductive PtyExit
  | posix_openpt
  | grantpt
  | unlockpt
  | ptsname
  | copy_string
deriving DecidableEq

/-- What the system answers to `pty_open`: the results of `posix_openpt`,
`grantpt` and `unlockpt`, and the string `ptsname` returns (`none` for a null
pointer). -/
structure PtyEnv where
  posix_openpt : Int
  grantpt : Int
  unlockpt : Int
  ptsname : Option (Nat → Nat)

/-- The C function `pty_open`: the descriptor it returns with the contents of
`name`, or the `errno_exit` it takes (`copy_string` is the one with
`errno = EOVERFLOW`). -/
def pty_open (env : PtyEnv) (name : Nat → Nat) (len : Nat) :
    Except PtyExit (Int × (Nat → Nat)) :=
  if env.posix_openpt = -1 then .error .posix_openpt
  else if env.grantpt = -1 then .error .grantpt
  else if env.unlockpt = -1 then .error .unlockpt
  else
    match env.ptsname with
    | none => .error .ptsname
    | some pty_name =>
      let copied := copy_string name pty_name len
      if copied.1 = len then .error .copy_string
      else .ok (env.posix_openpt, copied.2)

/-- The bytes of a string stored with its terminator: the bytes of `path`,
then zeros. -/
def c_string (path : List Nat) : Nat → Nat := fun i => path.getD i 0

/-- A text of 5000 bytes with exactly 10 line feeds that ends with a line
feed, in the two chunks in which a buffer of 4096 bytes accepts it. -/
def burst_ending_in_line_feed : List (List Nat) :=
  [List.replicate 4096 97, List.replicate 894 97 ++ List.replicate 10 10]

/-- A text of 5000 bytes with exactly 10 line feeds followed by a partial
line, in the two chunks in which a buffer of 4096 bytes accepts it. -/
def burst_with_open_line : List (List Nat) :=
  [List.replicate 4096 97, List.replicate 10 10 ++ List.replicate 894 97]

/-! ## The ingested stream -/

/-- The bytes a `read` stored: those of the outcome, none when it failed. -/
def ReadOutcome.delivered : ReadOutcome → List Nat
  | .bytes stored => stored
  | .error => []

/-- The reachable states together with the stream ingested so far: all the
bytes the reads have delivered since the buffer was created, in order (a
record kept beside the program, which has no such variable). -/
inductive ReachableStream : TermState → List Nat → Prop
  | create (env : SysEnv) (size : Nat) (data : RawDataBuffer)
      (h : data_buffer_create env size = .ok data) : ReachableStream (initial_state data) []
  | read (s : TermState) (stream : List Nat) (o : ReadOutcome) (hs : ReachableStream s stream)
      (ho : o.within (pty_read_count s.buffer.data)) :
      ReachableStream (pty_read_step s o).2 (stream ++ o.delivered)
  | parse (s : TermState) (stream : List Nat) (hs : ReachableStream s stream) :
      ReachableStream (parse_step s) stream

/-- The address at which the byte with stream offset `offset` lies: as far
below `write` as the offset is below `bytes_read`. -/
def stream_addr (d : RawDataBuffer) (offset : Nat) : Nat :=
  d.write - (d.bytes_read - offset)

/-- The buffer holds the last `size` bytes of the stream: the stream has
`bytes_read` bytes, and each byte with an offset in
`[bytes_read - size, bytes_read)` is the contents of its `stream_addr`. -/
def WindowInv (s : TermState) (stream : List Nat) : Prop :=
  stream.length = s.buffer.data.bytes_read ∧
    ∀ o, o < s.buffer.data.bytes_read → s.buffer.data.bytes_read - o ≤ s.buffer.data.size →
      load s.mem s.buffer.data (stream_addr s.buffer.data o) = stream.getD o 0

/-! ## Theorems -/

/-- C1 (evaluation at the failing input): with `pty_fd = 5`, no X events at
all, and the descriptor reported ready twice with `read` returning 0 each
time, `run_terminal` calls `pty_read` twice, the second time after the first
call returned 0, and then waits in `epoll_wait` again instead of returning. -/
theorem run_terminal_reads_again_after_eof :
    run_terminal (plain_env 65536) { WM_PROTOCOLS := 1, WM_DELETE_WINDOW := 2 } 5 []
      [eof_round, eof_round] = (.waiting, [0, 0]) := by
  decide

/-! ### Shape of a created buffer -/

theorem data_buffer_create_ok {env : SysEnv} {size : Nat} {data : RawDataBuffer}
    (h : data_buffer_create env size = .ok data) :
    size_check_fails size (alignull_up2 size env.page_size) = false ∧
    0 < alignull_up2 size env.page_size ∧
    ∃ start, data =
      { size := alignull_up2 size env.page_size
        bytes_read := 0
        base := start
        wrap := start + 2 * alignull_up2 size env.page_size
        read := start
        write := start } := by
  unfold data_buffer_create at h
  simp only at h
  by_cases hc : size_check_fails size (alignull_up2 size env.page_size) = true
  · rw [if_pos hc] at h
    exact Except.noConfusion h
  · rw [if_neg hc] at h
    split at h
    · exact Except.noConfusion h
    · split at h
      · exact Except.noConfusion h
      · split at h
        · exact Except.noConfusion h
        · rename_i start hstart
          split at h
          · exact Except.noConfusion h
          · split at h
            · exact Except.noConfusion h
            · split at h
              · exact Except.noConfusion h
              · have h2 := Except.ok.inj h
                have hpos : 0 < alignull_up2 size env.page_size := by
                  unfold sys_mmap_reserve at hstart
                  by_cases h0 : 3 * alignull_up2 size env.page_size = 0
                  · rw [if_pos h0] at hstart
                    exact Option.noConfusion hstart
                  · exact Nat.pos_of_ne_zero (fun hz => h0 (by rw [hz]))
                exact ⟨Bool.eq_false_iff.mpr hc, hpos, start, h2.symm⟩

/-! ### `pty_read` on the cursors -/

theorem pty_read_count_le (d : RawDataBuffer) :
    pty_read_count d ≤ d.size - (d.write - d.read) := by
  unfold pty_read_count minull
  simp only
  split_ifs <;> omega

theorem pty_read_neg (d : RawDataBuffer) (ret : Int) (h : ret < 0) :
    pty_read d ret = (ret, d) := by
  simp [pty_read, h]

theorem pty_read_fst (d : RawDataBuffer) (ret : Int) : (pty_read d ret).1 = ret := by
  unfold pty_read
  split_ifs <;> rfl

theorem pty_read_nat (d : RawDataBuffer) (n : Nat) :
    (pty_read d (n : Int)).2 =
      if d.write + n ≥ d.wrap then
        { d with
          bytes_read := d.bytes_read + n
          read := d.read - d.size
          write := d.write + n - d.size }
      else { d with bytes_read := d.bytes_read + n, write := d.write + n } := by
  have h : ¬ ((n : Int) < 0) := by omega
  simp only [pty_read, h, if_false, Int.toNat_ofNat]

theorem pty_read_inv (d : RawDataBuffer) (n : Nat) (hd : BufferInv d)
    (hn : n ≤ pty_read_count d) : BufferInv (pty_read d (n : Int)).2 := by
  have hc := pty_read_count_le d
  obtain ⟨h0, hw, hb, hrw, hlt, hsz, hbr⟩ := hd
  rw [pty_read_nat]
  unfold BufferInv
  split_ifs with h <;> simp only <;> omega

theorem pty_read_parsed_offset (d : RawDataBuffer) (n : Nat) (hd : BufferInv d)
    (hn : n ≤ pty_read_count d) :
    parsed_offset (pty_read d (n : Int)).2 = parsed_offset d := by
  have hc := pty_read_count_le d
  obtain ⟨h0, hw, hb, hrw, hlt, hsz, hbr⟩ := hd
  rw [pty_read_nat]
  unfold parsed_offset
  split_ifs with h <;> simp only <;> omega

/-- The buffer after a `read` within the requested count, for either outcome. -/
theorem pty_read_step_data (s : TermState) (o : ReadOutcome) :
    (pty_read_step s o).2.buffer.data = (pty_read s.buffer.data o.ret).2 ∧
    (pty_read_step s o).2.buffer.lines = s.buffer.lines ∧
    (pty_read_step s o).2.buffer.total_line_count = s.buffer.total_line_count ∧
    (pty_read_step s o).2.buffer.current_line = s.buffer.current_line :=
  ⟨rfl, rfl, rfl, rfl⟩

theorem pty_read_outcome_inv (d : RawDataBuffer) (o : ReadOutcome) (hd : BufferInv d)
    (ho : o.within (pty_read_count d)) :
    BufferInv (pty_read d o.ret).2 ∧ parsed_offset (pty_read d o.ret).2 = parsed_offset d ∧
      d.bytes_read ≤ (pty_read d o.ret).2.bytes_read := by
  cases o with
  | bytes stored =>
    simp only [ReadOutcome.ret, ReadOutcome.within] at ho ⊢
    refine ⟨pty_read_inv d _ hd ho, pty_read_parsed_offset d _ hd ho, ?_⟩
    rw [pty_read_nat]
    split_ifs <;> simp
  | error =>
    simp only [ReadOutcome.ret]
    rw [pty_read_neg d (-1) (by omega)]
    exact ⟨hd, rfl, le_refl _⟩

/-! ### The loop of `parse_lines` -/

theorem parse_lines_body_data (mem : Memory) (st : ParseLoop) :
    (parse_lines_body mem st).buffer.data =
      { st.buffer.data with read := st.buffer.data.read + 1 } := by
  unfold parse_lines_body
  simp only
  split_ifs <;> rfl

theorem parse_lines_body_consumed (mem : Memory) (st : ParseLoop) :
    (parse_lines_body mem st).consumed =
      st.consumed ++ [load mem st.buffer.data st.buffer.data.read] := by
  unfold parse_lines_body
  simp only
  split_ifs <;> rfl

theorem parse_lines_body_total (mem : Memory) (st : ParseLoop) :
    (parse_lines_body mem st).buffer.total_line_count =
      st.buffer.total_line_count +
        (if load mem st.buffer.data st.buffer.data.read = 10 then 1 else 0) := by
  unfold parse_lines_body
  simp only
  split_ifs <;> rfl

theorem parse_lines_body_current_byte (mem : Memory) (st : ParseLoop) :
    (parse_lines_body mem st).current_byte = st.current_byte + 1 := by
  unfold parse_lines_body
  simp only
  split_ifs <;> rfl

/-- Induction along the loop of `parse_lines`: a property that holds on entry
and is kept by every iteration made with `read < write` holds on exit. -/
theorem parse_lines_loop_induct (mem : Memory) (P : ParseLoop → Prop)
    (hstep : ∀ st, P st → st.buffer.data.read < st.buffer.data.write →
      P (parse_lines_body mem st)) :
    ∀ (fuel : Nat) (st : ParseLoop), P st → P (parse_lines_loop mem fuel st) := by
  intro fuel
  induction fuel with
  | zero => intro st h; exact h
  | succ n ih =>
    intro st h
    unfold parse_lines_loop
    split_ifs with hlt
    · exact ih _ (hstep st h hlt)
    · exact h

theorem load_congr (mem : Memory) (d d' : RawDataBuffer) (hb : d'.base = d.base)
    (hs : d'.size = d.size) (a : Nat) : load mem d' a = load mem d a := by
  unfold load phys
  rw [hb, hs]

theorem with_read_self (d : RawDataBuffer) (h : d.write = d.read) :
    d = { d with read := d.write } := by
  cases d
  simp only at h
  subst h
  rfl

/-- The loop of `parse_lines` with enough fuel: it stops with `read = write`,
leaves the other fields of the data buffer alone, obtains exactly the bytes at
the addresses `read, read + 1, ..., write - 1` in that order, and counts one
line for each line feed among them. -/
theorem parse_lines_loop_spec (mem : Memory) :
    ∀ (fuel : Nat) (st : ParseLoop), st.buffer.data.read ≤ st.buffer.data.write →
      st.buffer.data.write - st.buffer.data.read ≤ fuel →
      (parse_lines_loop mem fuel st).buffer.data =
          { st.buffer.data with read := st.buffer.data.write } ∧
        (parse_lines_loop mem fuel st).consumed =
          st.consumed ++ (List.range' st.buffer.data.read
            (st.buffer.data.write - st.buffer.data.read)).map (load mem st.buffer.data) ∧
        (parse_lines_loop mem fuel st).buffer.total_line_count =
          st.buffer.total_line_count + ((List.range' st.buffer.data.read
            (st.buffer.data.write - st.buffer.data.read)).map
              (load mem st.buffer.data)).count 10 ∧
        (parse_lines_loop mem fuel st).current_byte =
          st.current_byte + (st.buffer.data.write - st.buffer.data.read) := by
  intro fuel
  induction fuel with
  | zero =>
    intro st hle hfuel
    have h0 : st.buffer.data.write - st.buffer.data.read = 0 := by omega
    have hw : st.buffer.data.write = st.buffer.data.read := by omega
    simp only [parse_lines_loop, h0, List.range'_zero, List.map_nil, List.append_nil,
      List.count_nil, Nat.add_zero, and_true]
    exact with_read_self _ hw
  | succ n ih =>
    intro st hle hfuel
    unfold parse_lines_loop
    split_ifs with hlt
    · have hd := parse_lines_body_data mem st
      have hr : (parse_lines_body mem st).buffer.data.read = st.buffer.data.read + 1 := by
        rw [hd]
      have hw : (parse_lines_body mem st).buffer.data.write = st.buffer.data.write := by
        rw [hd]
      obtain ⟨h1, h2, h3, h4⟩ := ih (parse_lines_body mem st) (by rw [hr, hw]; omega)
        (by rw [hr, hw]; omega)
      have hload : load mem (parse_lines_body mem st).buffer.data = load mem st.buffer.data := by
        funext a
        exact load_congr mem _ _ (by rw [hd]) (by rw [hd]) a
      have hlen : st.buffer.data.write - st.buffer.data.read =
          (st.buffer.data.write - (st.buffer.data.read + 1)) + 1 := by omega
      refine ⟨?_, ?_, ?_, ?_⟩
      · rw [h1, hd]
      · rw [h2, hload, hr, hw, parse_lines_body_consumed, hlen, List.range'_succ]
        simp [List.append_assoc]
      · rw [h3, hload, hr, hw, parse_lines_body_total, hlen, List.range'_succ]
        simp only [List.map_cons, List.count_cons, beq_iff_eq]
        omega
      · rw [h4, hr, hw, parse_lines_body_current_byte]
        omega
    · have h0 : st.buffer.data.write - st.buffer.data.read = 0 := by omega
      have hw : st.buffer.data.write = st.buffer.data.read := by omega
      simp only [h0, List.range'_zero, List.map_nil, List.append_nil,
        List.count_nil, Nat.add_zero, and_true]
      exact with_read_self _ hw

/-! ### The invariant is kept -/

/-- The loop property behind `StateInv`: the buffer invariant, `current_byte`
is the parsed offset, and no record ends beyond it. -/
theorem parse_lines_body_inv (mem : Memory) (st : ParseLoop)
    (h : BufferInv st.buffer.data ∧ st.current_byte = parsed_offset st.buffer.data ∧
      ∀ i, (st.buffer.lines i).one_past_last_byte ≤ st.current_byte)
    (hlt : st.buffer.data.read < st.buffer.data.write) :
    BufferInv (parse_lines_body mem st).buffer.data ∧
      (parse_lines_body mem st).current_byte =
        parsed_offset (parse_lines_body mem st).buffer.data ∧
      ∀ i, ((parse_lines_body mem st).buffer.lines i).one_past_last_byte ≤
        (parse_lines_body mem st).current_byte := by
  obtain ⟨⟨h0, hw, hb, hrw, hwl, hsz, hbr⟩, hcb, hl⟩ := h
  unfold parsed_offset at hcb
  refine ⟨?_, ?_, ?_⟩
  · rw [parse_lines_body_data]
    unfold BufferInv
    simp only
    omega
  · rw [parse_lines_body_data, parse_lines_body_current_byte]
    unfold parsed_offset
    simp only
    omega
  · intro i
    rw [parse_lines_body_current_byte]
    have hi := hl i
    unfold parse_lines_body
    simp only
    split_ifs with hc <;> dsimp only <;> simp only [Function.update_apply] <;> split_ifs <;>
      (try dsimp only) <;> omega

theorem parse_step_inv (s : TermState) (h : StateInv s) : StateInv (parse_step s) := by
  obtain ⟨hb, hl⟩ := h
  have hentry : BufferInv (parse_lines_entry s.buffer).buffer.data ∧
      (parse_lines_entry s.buffer).current_byte =
        parsed_offset (parse_lines_entry s.buffer).buffer.data ∧
      ∀ i, ((parse_lines_entry s.buffer).buffer.lines i).one_past_last_byte ≤
        (parse_lines_entry s.buffer).current_byte := ⟨hb, rfl, hl⟩
  have hexit := parse_lines_loop_induct s.mem _ (parse_lines_body_inv s.mem)
    (s.buffer.data.write - s.buffer.data.read) (parse_lines_entry s.buffer) hentry
  obtain ⟨h1, h2, h3⟩ := hexit
  refine ⟨h1, ?_⟩
  intro i
  have := h3 i
  rw [h2] at this
  exact this

theorem initial_state_inv {env : SysEnv} {size : Nat} {data : RawDataBuffer}
    (h : data_buffer_create env size = .ok data) : StateInv (initial_state data) := by
  obtain ⟨_, hpos, start, rfl⟩ := data_buffer_create_ok h
  refine ⟨?_, ?_⟩
  · refine ⟨hpos, rfl, le_refl _, le_refl _, ?_, ?_, ?_⟩ <;>
      dsimp only [initial_state, line_buffer_create] <;> omega
  · intro i
    simp [initial_state, line_buffer_create]

theorem pty_read_step_inv (s : TermState) (o : ReadOutcome) (h : StateInv s)
    (ho : o.within (pty_read_count s.buffer.data)) : StateInv (pty_read_step s o).2 := by
  obtain ⟨hb, hl⟩ := h
  obtain ⟨h1, h2, _⟩ := pty_read_outcome_inv s.buffer.data o hb ho
  refine ⟨h1, ?_⟩
  intro i
  show (s.buffer.lines i).one_past_last_byte ≤ parsed_offset (pty_read s.buffer.data o.ret).2
  rw [h2]
  exact hl i

/-- Every reachable state satisfies the invariant. -/
theorem reachable_inv (s : TermState) (hs : Reachable s) : StateInv s := by
  induction hs with
  | create env size data h => exact initial_state_inv h
  | read s o _ ho ih => exact pty_read_step_inv s o ih ho
  | parse s _ ih => exact parse_step_inv s ih

/-- The data buffer after `parse_lines`: only `read` moves, to `write`. -/
theorem parse_step_data (s : TermState) (h : s.buffer.data.read ≤ s.buffer.data.write) :
    (parse_step s).buffer.data = { s.buffer.data with read := s.buffer.data.write } :=
  (parse_lines_loop_spec s.mem _ (parse_lines_entry s.buffer) h (le_refl _)).1

theorem plain_buffer_created : data_buffer_create (plain_env 65536) 4000 = .ok plain_buffer := by
  rfl

/-- The state built by `run_terminal` on the plain system is reachable. -/
theorem plain_state_reachable : Reachable (initial_state plain_buffer) :=
  Reachable.create (plain_env 65536) 4000 _ plain_buffer_created

/-- C2: in every state reachable from `data_buffer_create` by `pty_read` and
`parse_lines` calls the unread length `write - read` is at least 0 (`read` is
not above `write`) and at most `size`, and neither a `pty_read` (whatever the
`read` delivers within the requested count) nor a `parse_lines` makes
`bytes_read` smaller. -/
theorem unread_bounded_bytes_read_monotone (s : TermState) (hs : Reachable s) :
    (s.buffer.data.read ≤ s.buffer.data.write ∧
      s.buffer.data.write - s.buffer.data.read ≤ s.buffer.data.size) ∧
    (∀ o : ReadOutcome, o.within (pty_read_count s.buffer.data) →
      s.buffer.data.bytes_read ≤ (pty_read_step s o).2.buffer.data.bytes_read) ∧
    s.buffer.data.bytes_read ≤ (parse_step s).buffer.data.bytes_read := by
  obtain ⟨hb, _⟩ := reachable_inv s hs
  have hb' := hb
  obtain ⟨h0, hw, hbs, hrw, hwl, hsz, hbr⟩ := hb'
  refine ⟨⟨hrw, hsz⟩, ?_, ?_⟩
  · intro o ho
    exact (pty_read_outcome_inv s.buffer.data o hb ho).2.2
  · rw [parse_step_data s hrw]

/-- C2 at the state `run_terminal` starts from. -/
theorem unread_bounded_bytes_read_monotone_witness :
    Reachable (initial_state plain_buffer) ∧
    ((initial_state plain_buffer).buffer.data.read ≤ (initial_state plain_buffer).buffer.data.write ∧
      (initial_state plain_buffer).buffer.data.write - (initial_state plain_buffer).buffer.data.read
        ≤ (initial_state plain_buffer).buffer.data.size) :=
  ⟨plain_state_reachable,
    (unread_bounded_bytes_read_monotone (initial_state plain_buffer) plain_state_reachable).1⟩

/-! ### The three mappings and the bytes a `read` stores -/

/-- Two addresses less than `size` apart denote different physical bytes. -/
theorem phys_ne (d : RawDataBuffer) (a a' : Nat) (hb : d.base ≤ a) (hlt : a < a')
    (hd : a' - a < d.size) : phys d a ≠ phys d a' := by
  unfold phys
  intro h
  have hmod : a - d.base ≡ a' - d.base [MOD d.size] := h
  have hdvd := (Nat.modEq_iff_dvd' (by omega : a - d.base ≤ a' - d.base)).mp hmod
  have hle := Nat.le_of_dvd (by omega) hdvd
  omega

/-- An address and the address `size` below it denote the same physical byte. -/
theorem phys_sub_size (d : RawDataBuffer) (a : Nat) (h : d.base + d.size ≤ a) :
    (a - d.size - d.base) % d.size = phys d a := by
  unfold phys
  have : a - d.base = (a - d.size - d.base) + d.size := by omega
  rw [this, Nat.add_mod_right]

theorem store_bytes_other (d : RawDataBuffer) :
    ∀ (B : List Nat) (addr : Nat) (mem : Memory) (p : Nat),
      (∀ i, i < B.length → phys d (addr + i) ≠ p) → store_bytes mem d addr B p = mem p := by
  intro B
  induction B with
  | nil => intro addr mem p _; rfl
  | cons c cs ih =>
    intro addr mem p h
    unfold store_bytes
    rw [ih (addr + 1) _ p]
    · have h0 := h 0 (by simp)
      rw [Function.update_noteq]
      intro hp
      exact h0 (by simpa using hp.symm)
    · intro i hi
      have := h (i + 1) (by simp; omega)
      rwa [show addr + 1 + i = addr + (i + 1) by omega]

theorem store_bytes_at (d : RawDataBuffer) :
    ∀ (B : List Nat) (addr : Nat) (mem : Memory) (i : Nat) (hi : i < B.length),
      (∀ j, i < j → j < B.length → phys d (addr + j) ≠ phys d (addr + i)) →
      store_bytes mem d addr B (phys d (addr + i)) = B[i] := by
  intro B
  induction B with
  | nil => intro addr mem i hi; simp at hi
  | cons c cs ih =>
    intro addr mem i hi h
    unfold store_bytes
    cases i with
    | zero =>
      rw [store_bytes_other d cs (addr + 1) _ (phys d (addr + 0))]
      · simp
      · intro j hj
        have := h (j + 1) (by omega) (by simp; omega)
        rwa [show addr + 1 + j = addr + (j + 1) by omega]
    | succ k =>
      have hk : k < cs.length := by simpa using hi
      have := ih (addr + 1) (Function.update mem (phys d addr) c) k hk (by
        intro j hkj hj
        have := h (j + 1) (by omega) (by simp; omega)
        rwa [show addr + 1 + j = addr + (j + 1) by omega,
          show addr + 1 + k = addr + (k + 1) by omega])
      rw [show addr + 1 + k = addr + (k + 1) by omega] at this
      simpa using this

/-- After a `read` that fits the free space, every address of the new unread
range, taken `shift` lower when the cursors were moved down by `shift`, holds
the old unread byte or the stored byte that belongs there. -/
theorem load_after_store (d : RawDataBuffer) (mem : Memory) (B : List Nat)
    (hd : BufferInv d) (hB : B.length ≤ d.size - (d.write - d.read)) (i : Nat)
    (hi : i < (d.write - d.read) + B.length) :
    store_bytes mem d d.write B (phys d (d.read + i)) =
      if h : i < d.write - d.read then mem (phys d (d.read + i))
      else B[i - (d.write - d.read)] := by
  obtain ⟨h0, hw, hb, hrw, hwl, hsz, hbr⟩ := hd
  split_ifs with h
  · apply store_bytes_other
    intro j hj
    exact (phys_ne d (d.read + i) (d.write + j) (by omega) (by omega) (by omega)).symm
  · have hidx : d.read + i = d.write + (i - (d.write - d.read)) := by omega
    rw [hidx]
    apply store_bytes_at
    intro j hj1 hj2
    exact (phys_ne d (d.write + (i - (d.write - d.read))) (d.write + j) (by omega) (by omega)
      (by omega)).symm

/-- What `parse_lines` reads is the unread range, whenever `read ≤ write`. -/
theorem parse_lines_reads_eq_unread (s : TermState)
    (h : s.buffer.data.read ≤ s.buffer.data.write) :
    parse_lines_reads s.buffer s.mem = unread s := by
  have := (parse_lines_loop_spec s.mem _ (parse_lines_entry s.buffer) h (le_refl _)).2.1
  simpa [parse_lines_reads, parse_lines_run, unread, parse_lines_entry] using this

/-- The unread bytes after a `read` that fits the free space: the old unread
bytes followed by the stored ones, whether or not `pty_read` moved the
cursors down by `size`. -/
theorem unread_after_read (s : TermState) (B : List Nat) (hd : BufferInv s.buffer.data)
    (hB : B.length ≤ s.buffer.data.size - (s.buffer.data.write - s.buffer.data.read)) :
    unread (pty_read_step s (.bytes B)).2 = unread s ++ B := by
  have hd' := hd
  obtain ⟨h0, hw, hb, hrw, hwl, hsz, hbr⟩ := hd'
  have key : ∀ i, i < (s.buffer.data.write - s.buffer.data.read) + B.length →
      load (pty_read_step s (.bytes B)).2.mem (pty_read_step s (.bytes B)).2.buffer.data
        ((pty_read_step s (.bytes B)).2.buffer.data.read + i) =
      store_bytes s.mem s.buffer.data s.buffer.data.write B
        (phys s.buffer.data (s.buffer.data.read + i)) := by
    intro i hi
    show load (store_bytes s.mem s.buffer.data s.buffer.data.write B)
      (pty_read s.buffer.data (B.length : Int)).2
        ((pty_read s.buffer.data (B.length : Int)).2.read + i) = _
    rw [pty_read_nat]
    split_ifs with hwrap
    · simp only [load, phys]
      rw [show s.buffer.data.read - s.buffer.data.size + i =
        s.buffer.data.read + i - s.buffer.data.size by omega]
      rw [phys_sub_size s.buffer.data (s.buffer.data.read + i) (by omega)]
      rfl
    · rfl
  have hlen : (pty_read_step s (.bytes B)).2.buffer.data.write -
      (pty_read_step s (.bytes B)).2.buffer.data.read =
      (s.buffer.data.write - s.buffer.data.read) + B.length := by
    show (pty_read s.buffer.data (B.length : Int)).2.write -
      (pty_read s.buffer.data (B.length : Int)).2.read = _
    rw [pty_read_nat]
    split_ifs with hwrap <;> simp only <;> omega
  unfold unread
  apply List.ext_getElem
  · simp [hlen]
  · intro i h1 h2
    have hi : i < (s.buffer.data.write - s.buffer.data.read) + B.length := by
      simpa [hlen] using h1
    rw [List.getElem_map, List.getElem_range', Nat.one_mul, key i hi,
      load_after_store s.buffer.data s.mem B hd hB i hi, List.getElem_append]
    simp only [List.length_map, List.length_range']
    split_ifs with hlt
    · rw [List.getElem_map, List.getElem_range', Nat.one_mul]
      rfl
    · rfl

/-- C3: with the buffer memory as `size` physical bytes and address `a`
denoting byte `(a - base) % size`, in every reachable state, for every byte
sequence `B` no longer than the free space `size - (write - read)` that one
`pty_read` stores, the bytes `parse_lines` then reads are the previously
unread bytes followed by exactly `B`, in order; the statement covers the
`pty_read` that subtracts `size` from both cursors. -/
theorem read_then_parse_round_trip (s : TermState) (hs : Reachable s) (B : List Nat)
    (hB : B.length ≤ s.buffer.data.size - (s.buffer.data.write - s.buffer.data.read)) :
    parse_lines_reads (pty_read_step s (.bytes B)).2.buffer (pty_read_step s (.bytes B)).2.mem =
      unread s ++ B := by
  have hd := (reachable_inv s hs).1
  have hd' : BufferInv (pty_read_step s (.bytes B)).2.buffer.data := by
    show BufferInv (pty_read s.buffer.data (B.length : Int)).2
    obtain ⟨h0, hw, hb, hrw, hwl, hsz, hbr⟩ := hd
    rw [pty_read_nat]
    unfold BufferInv
    split_ifs with h <;> simp only <;> omega
  rw [parse_lines_reads_eq_unread _ hd'.2.2.2.1]
  exact unread_after_read s B hd hB

/-- C3 at the fresh buffer of `run_terminal` and the bytes `h`, line feed. -/
theorem read_then_parse_round_trip_witness :
    parse_lines_reads (pty_read_step (initial_state plain_buffer) (.bytes [104, 10])).2.buffer
        (pty_read_step (initial_state plain_buffer) (.bytes [104, 10])).2.mem =
      unread (initial_state plain_buffer) ++ [104, 10] :=
  read_then_parse_round_trip (initial_state plain_buffer) plain_state_reachable [104, 10]
    (by decide)

/-! ### `parse_lines` sees every unread byte -/

/-- C4: for every buffer state whose unread bytes are the sequence `unread s`
(the cursors in order, `read ≤ write`), `parse_lines` reads exactly those
bytes, each once and in order, leaves `read` equal to `write`, and raises
`total_line_count` by the number of line feeds among them; no bound on the
length of the sequence, on the rows shown or on the 80 line slots enters. -/
theorem parse_lines_reads_every_byte (s : TermState)
    (h : s.buffer.data.read ≤ s.buffer.data.write) :
    parse_lines_reads s.buffer s.mem = unread s ∧
    (parse_lines s.buffer s.mem).data.read = (parse_lines s.buffer s.mem).data.write ∧
    (parse_lines s.buffer s.mem).total_line_count =
      s.buffer.total_line_count + (unread s).count 10 := by
  obtain ⟨h1, _, h3, _⟩ :=
    parse_lines_loop_spec s.mem _ (parse_lines_entry s.buffer) h (le_refl _)
  refine ⟨parse_lines_reads_eq_unread s h, ?_, ?_⟩
  · show (parse_step s).buffer.data.read = (parse_step s).buffer.data.write
    rw [parse_step_data s h]
  · exact h3

/-- C4 at the state holding the three unread bytes `h`, line feed, `i`. -/
theorem parse_lines_reads_every_byte_witness :
    parse_lines_reads fed_state.buffer fed_state.mem = unread fed_state ∧
    (parse_lines fed_state.buffer fed_state.mem).data.read =
      (parse_lines fed_state.buffer fed_state.mem).data.write ∧
    (parse_lines fed_state.buffer fed_state.mem).total_line_count =
      fed_state.buffer.total_line_count + (unread fed_state).count 10 :=
  parse_lines_reads_every_byte fed_state (by decide)

/-! ### The capacity rounding -/

/-- C5 (evaluation at failing inputs): with the power-of-two page size 4096,
`alignull_up2` gives 4096 for 4000, but 4096 for the requested size 4097
(below the request; the smallest multiple that fits is 8192) and 0 for the
requested size 1 (the smallest multiple that fits is 4096). -/
theorem alignull_up2_rounds_below_request :
    power_of_2u 4096 = true ∧ alignull_up2 4000 4096 = 4096 ∧
      alignull_up2 4097 4096 = 4096 ∧ alignull_up2 1 4096 = 0 := by
  decide

/-! ### `pty_read` -/

/-- A `read` that returns 0 leaves a buffer with `write < wrap` as it is. -/
theorem pty_read_zero (d : RawDataBuffer) (h : d.write < d.wrap) : pty_read d 0 = (0, d) := by
  have hn := pty_read_nat d 0
  have hf := pty_read_fst d 0
  rw [if_neg (by simpa using h)] at hn
  have hd : (pty_read d 0).2 = d := by
    rw [show ((0 : Nat) : Int) = 0 from rfl] at hn
    rw [hn]
    cases d
    rfl
  exact Prod.ext hf hd

/-- C7: in every reachable state `pty_read` asks `read` for at most
`size - (write - read)` bytes; when `read` returns `n ≥ 0` (at most the count
asked for) `pty_read` returns `n`, `bytes_read` and the unread length
`write - read` grow by `n`, and `size`, `base` and `wrap` stay; a return of 0
changes nothing; when `read` returns a negative value `pty_read` returns that
value and leaves every field alone. -/
theorem pty_read_effect (s : TermState) (hs : Reachable s) :
    pty_read_count s.buffer.data ≤
      s.buffer.data.size - (s.buffer.data.write - s.buffer.data.read) ∧
    (∀ n : Nat, n ≤ pty_read_count s.buffer.data →
      (pty_read s.buffer.data (n : Int)).1 = (n : Int) ∧
      (pty_read s.buffer.data (n : Int)).2.bytes_read = s.buffer.data.bytes_read + n ∧
      (pty_read s.buffer.data (n : Int)).2.read ≤ (pty_read s.buffer.data (n : Int)).2.write ∧
      (pty_read s.buffer.data (n : Int)).2.write - (pty_read s.buffer.data (n : Int)).2.read =
        (s.buffer.data.write - s.buffer.data.read) + n ∧
      (pty_read s.buffer.data (n : Int)).2.size = s.buffer.data.size ∧
      (pty_read s.buffer.data (n : Int)).2.base = s.buffer.data.base ∧
      (pty_read s.buffer.data (n : Int)).2.wrap = s.buffer.data.wrap) ∧
    pty_read s.buffer.data 0 = (0, s.buffer.data) ∧
    (∀ ret : Int, ret < 0 → pty_read s.buffer.data ret = (ret, s.buffer.data)) := by
  obtain ⟨h0, hw, hb, hrw, hwl, hsz, hbr⟩ := (reachable_inv s hs).1
  have hc := pty_read_count_le s.buffer.data
  refine ⟨hc, ?_, pty_read_zero _ hwl, fun ret hret => pty_read_neg _ ret hret⟩
  intro n hn
  refine ⟨pty_read_fst _ _, ?_⟩
  rw [pty_read_nat]
  split_ifs with hwrap <;> dsimp only <;> omega

/-- C7 at the fresh buffer of `run_terminal`. -/
theorem pty_read_effect_witness :
    pty_read_count (initial_state plain_buffer).buffer.data ≤ 4096 - (65536 - 65536) ∧
    pty_read (initial_state plain_buffer).buffer.data 0 =
      (0, (initial_state plain_buffer).buffer.data) :=
  ⟨(pty_read_effect (initial_state plain_buffer) plain_state_reachable).1,
    (pty_read_effect (initial_state plain_buffer) plain_state_reachable).2.2.1⟩

/-! ### `parse_lines` without unread bytes -/

theorem parse_lines_noop (b : TerminalLineBuffer) (mem : Memory)
    (h : ¬ b.data.read < b.data.write) : parse_lines b mem = b := by
  have h0 : b.data.write - b.data.read = 0 := by omega
  unfold parse_lines parse_lines_run
  rw [h0]
  rfl

/-- C9: when no byte is unread (`read = write`) `parse_lines` returns the line
buffer unchanged: `total_line_count`, `current_line`, every line record, both
cursors and `bytes_read`; and from any state a second `parse_lines` in a row
gives the same line buffer as the first. -/
theorem parse_lines_idempotent (s : TermState) :
    (s.buffer.data.read = s.buffer.data.write → parse_lines s.buffer s.mem = s.buffer) ∧
    parse_lines (parse_lines s.buffer s.mem) s.mem = parse_lines s.buffer s.mem := by
  refine ⟨fun h => parse_lines_noop _ _ (by omega), ?_⟩
  by_cases h : s.buffer.data.read ≤ s.buffer.data.write
  · apply parse_lines_noop
    have hd : (parse_lines s.buffer s.mem).data =
        { s.buffer.data with read := s.buffer.data.write } := parse_step_data s h
    rw [hd]
    dsimp only
    omega
  · rw [parse_lines_noop s.buffer s.mem (by omega)]
    exact parse_lines_noop s.buffer s.mem (by omega)

/-- C9 at the fresh state of `run_terminal`, where `read = write`. -/
theorem parse_lines_idempotent_witness :
    parse_lines (initial_state plain_buffer).buffer (initial_state plain_buffer).mem =
      (initial_state plain_buffer).buffer :=
  (parse_lines_idempotent (initial_state plain_buffer)).1 rfl

/-! ### The size check of `data_buffer_create` -/

theorem land_clear_low (x k : Nat) (hx : x < 2 ^ 64) (hk : k ≤ 64) :
    x &&& (2 ^ 64 - 1 - (2 ^ k - 1)) = x / 2 ^ k * 2 ^ k := by
  apply Nat.eq_of_testBit_eq
  intro i
  have h1 : 2 ^ 64 - 1 - (2 ^ k - 1) = (2 ^ (64 - k) - 1) <<< k := by
    rw [Nat.shiftLeft_eq, Nat.sub_mul, ← Nat.pow_add, Nat.sub_add_cancel hk]
    have : 1 ≤ 2 ^ k := Nat.one_le_two_pow
    omega
  have h2 : x / 2 ^ k * 2 ^ k = (x >>> k) <<< k := by
    rw [Nat.shiftLeft_eq, Nat.shiftRight_eq_div_pow]
  rw [Nat.testBit_and, h1, h2, Nat.testBit_shiftLeft, Nat.testBit_shiftLeft,
    Nat.testBit_shiftRight, Nat.testBit_two_pow_sub_one]
  by_cases hik : k ≤ i
  · have hki : k + (i - k) = i := by omega
    rw [hki]
    by_cases hi : i < 64
    · have : i - k < 64 - k := by omega
      simp [hik, this]
    · have hx' : x.testBit i = false := by
        apply Nat.testBit_lt_two_pow
        exact lt_of_lt_of_le hx (Nat.pow_le_pow_right (by omega) (by omega))
      simp [hx']
  · simp [hik]

/-- The value `alignull_up2` computes for a power-of-two alignment: the
wrapped sum rounded down to a multiple of the alignment. -/
theorem alignull_up2_eq (value k : Nat) (hk : k < 64) :
    alignull_up2 value (2 ^ k) =
      ((value + (2 ^ k - 1 + 2 ^ 64 - 1) % 2 ^ 64) % 2 ^ 64) / 2 ^ k * 2 ^ k := by
  have hp1 : 1 ≤ 2 ^ k := Nat.one_le_two_pow
  have hp2 : 2 ^ k < 2 ^ 64 := Nat.pow_lt_pow_right (by omega) hk
  have hmask : (2 ^ k + 2 ^ 64 - 1) % 2 ^ 64 = 2 ^ k - 1 := by omega
  unfold alignull_up2 U64_MOD ULLONG_MAX
  simp only
  rw [hmask]
  exact land_clear_low _ k (Nat.mod_lt _ (by positivity)) (by omega)

theorem size_check_fails_iff (size aligned_size : Nat) :
    size_check_fails size aligned_size = true ↔
      aligned_size < size ∨ aligned_size > SIZE_MAX / 3 := by
  simp [size_check_fails]

theorem data_buffer_create_exit_iff (env : SysEnv) (size : Nat) :
    data_buffer_create env size = .error .buffer_size ↔
      size_check_fails size (alignull_up2 size env.page_size) = true := by
  constructor
  · intro h
    by_contra hc
    unfold data_buffer_create at h
    simp only at h
    rw [if_neg hc] at h
    split at h
    · exact CreateExit.noConfusion (Except.error.inj h)
    · split at h
      · exact CreateExit.noConfusion (Except.error.inj h)
      · split at h
        · exact CreateExit.noConfusion (Except.error.inj h)
        · split at h
          · exact CreateExit.noConfusion (Except.error.inj h)
          · split at h
            · exact CreateExit.noConfusion (Except.error.inj h)
            · split at h
              · exact CreateExit.noConfusion (Except.error.inj h)
              · exact Except.noConfusion h
  · intro hc
    unfold data_buffer_create
    simp only
    rw [if_pos hc]

/-- A multiple of `p` that is at least `n` is at least `n` rounded up to a
multiple of `p`. -/
theorem round_up_le_multiple (n p a : Nat) (hp : 0 < p) (hdvd : p ∣ a) (hle : n ≤ a) :
    (n + p - 1) / p * p ≤ a := by
  obtain ⟨c, rfl⟩ := hdvd
  have h1 : (n + p - 1) / p ≤ c := by
    have hlt : (n + p - 1) / p < c + 1 := by
      rw [Nat.div_lt_iff_lt_mul hp]
      have : (c + 1) * p = p * c + p := by ring
      omega
    omega
  calc (n + p - 1) / p * p ≤ c * p := Nat.mul_le_mul_right p h1
    _ = p * c := Nat.mul_comm c p

/-- C10: for a power-of-two page size, `data_buffer_create` takes its
`EOVERFLOW` exit whenever the requested size rounded up to a multiple of the
page size does not fit in `size_t` or exceeds `SIZE_MAX / 3`, and whenever the
capacity `alignull_up2` computed exceeds `SIZE_MAX / 3`; whenever it does not
take that exit the capacity is at least the requested size, is a multiple of
the page size and its triple fits in `size_t`; and that capacity is what a
successful call stores in `size`. -/
theorem size_check_guards_capacity (env : SysEnv) (size k : Nat)
    (hp : env.page_size = 2 ^ k) (hk : k < 64) :
    ((size + env.page_size - 1) / env.page_size * env.page_size > SIZE_MAX ∨
        (size + env.page_size - 1) / env.page_size * env.page_size > SIZE_MAX / 3 ∨
        alignull_up2 size env.page_size > SIZE_MAX / 3 →
      data_buffer_create env size = .error .buffer_size) ∧
    (data_buffer_create env size ≠ .error .buffer_size →
      size ≤ alignull_up2 size env.page_size ∧
      env.page_size ∣ alignull_up2 size env.page_size ∧
      3 * alignull_up2 size env.page_size ≤ SIZE_MAX) ∧
    (∀ data, data_buffer_create env size = .ok data →
      data.size = alignull_up2 size env.page_size ∧ size ≤ data.size ∧
      env.page_size ∣ data.size ∧ 3 * data.size ≤ SIZE_MAX) := by
  have hdvd : env.page_size ∣ alignull_up2 size env.page_size := by
    rw [hp, alignull_up2_eq size k hk]
    exact Dvd.intro_left _ rfl
  have hpos : 0 < env.page_size := by
    rw [hp]
    exact Nat.one_le_two_pow
  have hexit := data_buffer_create_exit_iff env size
  have hfail := size_check_fails_iff size (alignull_up2 size env.page_size)
  have hpast : data_buffer_create env size ≠ .error .buffer_size →
      size ≤ alignull_up2 size env.page_size ∧
      env.page_size ∣ alignull_up2 size env.page_size ∧
      3 * alignull_up2 size env.page_size ≤ SIZE_MAX := by
    intro hne
    rw [Ne, hexit, hfail] at hne
    push_neg at hne
    refine ⟨hne.1, hdvd, ?_⟩
    have := (Nat.le_div_iff_mul_le (by norm_num : 0 < 3)).mp hne.2
    rw [Nat.mul_comm]
    exact this
  refine ⟨?_, hpast, ?_⟩
  · intro h
    by_contra hne
    obtain ⟨h1, _, h3⟩ := hpast hne
    have hR := round_up_le_multiple size env.page_size _ hpos hdvd h1
    have hmax : SIZE_MAX / 3 ≤ SIZE_MAX := Nat.div_le_self _ _
    have hA3 : alignull_up2 size env.page_size ≤ SIZE_MAX / 3 := by
      rw [Nat.le_div_iff_mul_le (by norm_num : 0 < 3), Nat.mul_comm]
      exact h3
    rcases h with h | h | h
    · exact absurd (le_trans hR (le_trans hA3 hmax)) (not_le.mpr h)
    · exact absurd (le_trans hR hA3) (not_le.mpr h)
    · exact absurd hA3 (not_le.mpr h)
  · intro data hok
    have hne : data_buffer_create env size ≠ .error .buffer_size := by
      rw [hok]
      exact fun h => Except.noConfusion h
    obtain ⟨h1, h2, h3⟩ := hpast hne
    obtain ⟨_, _, start, rfl⟩ := data_buffer_create_ok hok
    exact ⟨rfl, h1, h2, h3⟩

/-- C10 for the request of `run_terminal`: 4000 bytes with pages of 4096. -/
theorem size_check_guards_capacity_witness :
    (plain_env 65536).page_size = 2 ^ 12 ∧ 12 < 64 ∧
    (4000 ≤ alignull_up2 4000 (plain_env 65536).page_size ∧
      (plain_env 65536).page_size ∣ alignull_up2 4000 (plain_env 65536).page_size ∧
      3 * alignull_up2 4000 (plain_env 65536).page_size ≤ SIZE_MAX) :=
  ⟨rfl, by decide,
    (size_check_guards_capacity (plain_env 65536) 4000 12 rfl (by decide)).2.1
      (by rw [plain_buffer_created]; exact fun h => Except.noConfusion h)⟩

/-! ### `draw_buffer` reads inside the window of `size` bytes -/

/-- The inner loop of `draw_buffer` reads consecutive stream offsets from
consecutive addresses, starting where it is entered, and stops before
`one_past_last_byte`. -/
theorem draw_line_loop_reads (mem : Memory) (data : RawDataBuffer) (env : DrawEnv) (opl : Nat) :
    ∀ (fuel : Nat) (st : DrawLoop), ∃ n, n ≤ opl - st.first_byte ∧
      (draw_line_loop mem data env opl fuel st).reads =
        st.reads ++ (List.range n).map (fun j => (st.first_byte + j, st.byte_to_read + j)) := by
  intro fuel
  induction fuel with
  | zero =>
    intro st
    exact ⟨0, Nat.zero_le _, by simp [draw_line_loop]⟩
  | succ m ih =>
    intro st
    unfold draw_line_loop
    split_ifs with hc
    · obtain ⟨n, hn, hr⟩ := ih (draw_line_body mem data env st)
      refine ⟨n + 1, ?_, ?_⟩
      · have : (draw_line_body mem data env st).first_byte = st.first_byte + 1 := rfl
        rw [this] at hn
        omega
      · rw [hr, List.range_succ_eq_map]
        simp only [draw_line_body, List.append_assoc, List.map_cons, List.map_map,
          List.singleton_append, Nat.add_zero]
        congr 2
        apply List.map_congr_left
        intro j _
        simp only [Function.comp_apply, Prod.mk.injEq]
        omega
    · exact ⟨0, Nat.zero_le _, by simp⟩

/-- The reads `draw_buffer` makes for one record: consecutive stream offsets
from `max first_byte (bytes_read - size)` on, all below `one_past_last_byte`. -/
theorem draw_line_reads (mem : Memory) (data : RawDataBuffer) (env : DrawEnv)
    (line : TerminalLine) :
    (draw_line mem data env line).map Prod.fst =
        List.range' (max line.first_byte (data.bytes_read - data.size))
          (draw_line mem data env line).length ∧
      ∀ r ∈ draw_line mem data env line,
        max line.first_byte (data.bytes_read - data.size) ≤ r.1 ∧
          r.1 < line.one_past_last_byte := by
  unfold draw_line
  simp only
  split_ifs with hoff
  · obtain ⟨n, hn, hr⟩ := draw_line_loop_reads mem data env line.one_past_last_byte
      (line.one_past_last_byte - (data.bytes_read - data.size))
      { first_byte := data.bytes_read - data.size, byte_to_read := data.write - data.size,
        x_pos := 0, reads := [] }
    have hmax : max line.first_byte (data.bytes_read - data.size) =
        data.bytes_read - data.size := by omega
    rw [hr, hmax]
    simp only [List.nil_append, List.map_map, List.length_map, List.length_range]
    dsimp only at hn
    refine ⟨?_, ?_⟩
    · rw [List.range'_eq_map_range]
      apply List.map_congr_left
      intro j _
      rfl
    · intro r hmem
      rw [List.mem_map] at hmem
      obtain ⟨j, hj, rfl⟩ := hmem
      rw [List.mem_range] at hj
      dsimp only
      omega
  · obtain ⟨n, hn, hr⟩ := draw_line_loop_reads mem data env line.one_past_last_byte
      (line.one_past_last_byte - line.first_byte)
      { first_byte := line.first_byte,
        byte_to_read := data.write - (data.bytes_read - line.first_byte),
        x_pos := 0, reads := [] }
    have hmax : max line.first_byte (data.bytes_read - data.size) = line.first_byte := by omega
    rw [hr, hmax]
    simp only [List.nil_append, List.map_map, List.length_map, List.length_range]
    dsimp only at hn
    refine ⟨?_, ?_⟩
    · rw [List.range'_eq_map_range]
      apply List.map_congr_left
      intro j _
      rfl
    · intro r hmem
      rw [List.mem_map] at hmem
      obtain ⟨j, hj, rfl⟩ := hmem
      rw [List.mem_range] at hj
      dsimp only
      omega

/-- The walk of `draw_buffer`: it visits the slots `current_line`,
`draw_previous current_line`, ... in turn, draws a record exactly when the
test before the `break` fails, and stops at the first record for which the
test holds, or after the given number of records. -/
theorem draw_buffer_loop_spec (mem : Memory) (lines : TerminalLineBuffer) (env : DrawEnv) :
    ∀ (n cur : Nat),
      ((draw_buffer_loop mem lines env n cur).drawn.map DrawnLine.slot =
          (List.range (draw_buffer_loop mem lines env n cur).drawn.length).map
            (fun i => draw_previous^[i] cur)) ∧
      (∀ dl ∈ (draw_buffer_loop mem lines env n cur).drawn,
        draw_skips lines.data (lines.lines dl.slot) = false ∧
          dl.reads = draw_line mem lines.data env (lines.lines dl.slot)) ∧
      (∀ k, (draw_buffer_loop mem lines env n cur).stopped = some k →
        k = draw_previous^[(draw_buffer_loop mem lines env n cur).drawn.length] cur ∧
          draw_skips lines.data (lines.lines k) = true) ∧
      ((draw_buffer_loop mem lines env n cur).stopped = none →
        (draw_buffer_loop mem lines env n cur).drawn.length = n) := by
  intro n
  induction n with
  | zero =>
    intro cur
    simp [draw_buffer_loop]
  | succ m ih =>
    intro cur
    unfold draw_buffer_loop
    simp only
    split_ifs with hskip
    · refine ⟨by simp, by simp, ?_, by simp⟩
      intro k hk
      simp only [Option.some.injEq] at hk
      subst hk
      exact ⟨rfl, hskip⟩
    · obtain ⟨h1, h2, h3, h4⟩ := ih (draw_previous cur)
      refine ⟨?_, ?_, ?_, ?_⟩
      · simp only [List.map_cons, List.length_cons, List.range_succ_eq_map, h1,
          List.map_map, Function.iterate_zero, id_eq]
        congr 1
      · intro dl hdl
        rw [List.mem_cons] at hdl
        rcases hdl with rfl | hdl
        · exact ⟨by simpa using hskip, rfl⟩
        · exact h2 dl hdl
      · intro k hk
        obtain ⟨hk1, hk2⟩ := h3 k hk
        refine ⟨?_, hk2⟩
        rw [hk1]
        simp only [List.length_cons, Function.iterate_succ, Function.comp_apply]
      · intro hnone
        simp only [List.length_cons]
        rw [h4 hnone]

/-- The state after the first three bytes were read and indexed is reachable. -/
theorem fed_state_reachable : Reachable fed_state :=
  Reachable.read (initial_state plain_buffer) (.bytes [104, 10, 105]) plain_state_reachable
    (show [104, 10, 105].length ≤ pty_read_count (initial_state plain_buffer).buffer.data by
      decide)

/-! ### The line index -/

/-- The slot reached from `c` by `j` backward steps of the walk of
`draw_buffer`. -/
theorem draw_previous_iterate (c : Nat) (hc : c < LINE_BUFFER_COUNT) (j : Nat) :
    draw_previous^[j] c = (c + LINE_BUFFER_COUNT - j % LINE_BUFFER_COUNT) % LINE_BUFFER_COUNT := by
  unfold LINE_BUFFER_COUNT at *
  induction j with
  | zero => simp; omega
  | succ n ih =>
    rw [Function.iterate_succ_apply', ih]
    unfold draw_previous LINE_BUFFER_COUNT
    split_ifs <;> omega

theorem update_first_byte (L : Nat → TerminalLine) (c : Nat) (v : TerminalLine) (i : Nat) :
    (Function.update L c v i).first_byte = if i = c then v.first_byte else (L i).first_byte := by
  rw [Function.update_apply]
  split_ifs <;> rfl

theorem update_one_past (L : Nat → TerminalLine) (c : Nat) (v : TerminalLine) (i : Nat) :
    (Function.update L c v i).one_past_last_byte =
      if i = c then v.one_past_last_byte else (L i).one_past_last_byte := by
  rw [Function.update_apply]
  split_ifs <;> rfl

/-- A byte other than a line feed: the open record grows by one. -/
theorem ring_inv_byte (L : Nat → TerminalLine) (c T cb : Nat) (h : RingInv L c T cb) :
    RingInv (Function.update L c
      { first_byte := (L c).first_byte, one_past_last_byte := cb + 1 }) c T (cb + 1) := by
  unfold RingInv LINE_BUFFER_COUNT at h ⊢
  obtain ⟨hc80, hT, hcT, hle, hopen, hzero, hchain⟩ := h
  refine ⟨hc80, hT, hcT, ?_, ?_, ?_, ?_⟩
  · intro i
    have := hle i
    rw [update_first_byte, update_one_past]
    split_ifs with hi
    · subst hi
      dsimp only
      omega
    · exact this
  · rw [update_one_past, if_pos rfl]
  · intro hT80
    have := hzero hT80
    rw [update_first_byte]
    split_ifs with hi
    · subst hi
      exact this
    · exact this
  · intro j hj
    have := hchain j hj
    rw [update_first_byte, update_one_past]
    have hne : (c + 80 - (j + 1)) % 80 ≠ c := by omega
    rw [if_neg hne]
    split_ifs with hi
    · rw [hi] at this
      exact this
    · exact this

/-- A line feed: the open record is closed at `cb + 1` and the next slot of
the ring becomes the new, empty open record starting there. -/
theorem ring_inv_newline (L : Nat → TerminalLine) (c T cb c' : Nat)
    (hc' : c' = (c + 1) % 80) (h : RingInv L c T cb) :
    RingInv (Function.update (Function.update L c
        { first_byte := (L c).first_byte, one_past_last_byte := cb + 1 }) c'
        { first_byte := cb + 1, one_past_last_byte := cb + 1 }) c' (T + 1) (cb + 1) := by
  unfold RingInv LINE_BUFFER_COUNT at h ⊢
  obtain ⟨hc80, hT, hcT, hle, hopen, hzero, hchain⟩ := h
  have hcc : c' ≠ c := by omega
  refine ⟨by omega, by omega, by omega, ?_, ?_, ?_, ?_⟩
  · intro i
    have := hle i
    rw [update_first_byte, update_one_past, update_first_byte, update_one_past]
    split_ifs with h1 h2
    · exact le_refl _
    · subst h2
      dsimp only
      omega
    · exact this
  · rw [update_one_past, if_pos rfl]
  · intro hT80
    have h0 := hzero (by omega)
    have hne : (0 : Nat) ≠ c' := by omega
    rw [update_first_byte, if_neg hne, update_first_byte]
    split_ifs with hi
    · rw [← hi]
      exact h0
    · exact h0
  · intro j hj
    rw [update_first_byte, update_one_past, update_first_byte, update_one_past]
    have hne1 : (c' + 80 - (j + 1)) % 80 ≠ c' := by omega
    rw [if_neg hne1]
    cases j with
    | zero =>
      have e0 : (c' + 80 - 0) % 80 = c' := by omega
      have e1 : (c' + 80 - (0 + 1)) % 80 = c := by omega
      rw [e0, e1, if_pos rfl, if_pos rfl]
    | succ m =>
      have e0 : (c' + 80 - (m + 1)) % 80 = (c + 80 - m) % 80 := by omega
      have e1 : (c' + 80 - (m + 1 + 1)) % 80 = (c + 80 - (m + 1)) % 80 := by omega
      have hne0 : (c + 80 - m) % 80 ≠ c' := by omega
      have hne2 : (c + 80 - (m + 1)) % 80 ≠ c := by omega
      have := hchain m (by omega)
      rw [e0, e1, if_neg hne0, if_neg hne2]
      split_ifs with hi
      · rw [hi] at this
        exact this
      · exact this

/-- One iteration of `parse_lines` keeps the invariant of the line index,
with `current_byte` as the offset; `line` stays the slot `current_line`. -/
theorem parse_lines_body_line_inv (mem : Memory) (st : ParseLoop)
    (h : st.line = st.buffer.current_line ∧ LineInv st.buffer st.current_byte)
    (_hlt : st.buffer.data.read < st.buffer.data.write) :
    (parse_lines_body mem st).line = (parse_lines_body mem st).buffer.current_line ∧
      LineInv (parse_lines_body mem st).buffer (parse_lines_body mem st).current_byte := by
  obtain ⟨hline, hinv⟩ := h
  have hc80 : st.buffer.current_line < 80 := hinv.1
  unfold parse_lines_body LINE_BUFFER_COUNT
  simp only
  split_ifs with hnl h80
  · refine ⟨rfl, ?_⟩
    rw [hline]
    exact ring_inv_newline _ _ _ _ 0 (by omega) hinv
  · refine ⟨rfl, ?_⟩
    rw [hline]
    exact ring_inv_newline _ _ _ _ _ (by omega) hinv
  · refine ⟨hline, ?_⟩
    rw [hline]
    exact ring_inv_byte _ _ _ _ hinv

/-- The invariant of the states between rounds: the state invariant, no
unread byte, and the line index built up to `bytes_read`. -/
theorem round_inv (s : TermState) (o : ReadOutcome)
    (h : StateInv s ∧ s.buffer.data.read = s.buffer.data.write ∧
      LineInv s.buffer s.buffer.data.bytes_read)
    (ho : o.within (pty_read_count s.buffer.data)) :
    StateInv (read_parse_step s o) ∧
      (read_parse_step s o).buffer.data.read = (read_parse_step s o).buffer.data.write ∧
      LineInv (read_parse_step s o).buffer (read_parse_step s o).buffer.data.bytes_read := by
  obtain ⟨hs, hrw, hinv⟩ := h
  have hs1 : StateInv (pty_read_step s o).2 := pty_read_step_inv s o hs ho
  obtain ⟨h0, hw, hb, hle, hwl, hsz, hbr⟩ := hs1.1
  have hpo := (pty_read_outcome_inv s.buffer.data o hs.1 ho).2.1
  have hpo' : parsed_offset (pty_read_step s o).2.buffer.data = s.buffer.data.bytes_read := by
    show parsed_offset (pty_read s.buffer.data o.ret).2 = _
    rw [hpo]
    unfold parsed_offset
    omega
  have hdata := parse_step_data (pty_read_step s o).2 hle
  refine ⟨parse_step_inv _ hs1, ?_, ?_⟩
  · show (parse_step (pty_read_step s o).2).buffer.data.read =
      (parse_step (pty_read_step s o).2).buffer.data.write
    rw [hdata]
  · have hentry : (parse_lines_entry (pty_read_step s o).2.buffer).line =
          (parse_lines_entry (pty_read_step s o).2.buffer).buffer.current_line ∧
        LineInv (parse_lines_entry (pty_read_step s o).2.buffer).buffer
          (parse_lines_entry (pty_read_step s o).2.buffer).current_byte := by
      refine ⟨rfl, ?_⟩
      show LineInv (pty_read_step s o).2.buffer (parsed_offset (pty_read_step s o).2.buffer.data)
      rw [hpo']
      exact hinv
    have hexit := parse_lines_loop_induct (pty_read_step s o).2.mem _
      (parse_lines_body_line_inv (pty_read_step s o).2.mem)
      ((pty_read_step s o).2.buffer.data.write - (pty_read_step s o).2.buffer.data.read)
      (parse_lines_entry (pty_read_step s o).2.buffer) hentry
    have hcb := (parse_lines_loop_spec (pty_read_step s o).2.mem _
      (parse_lines_entry (pty_read_step s o).2.buffer) hle (le_refl _)).2.2.2
    have hcb' : (parse_lines_run (pty_read_step s o).2.buffer (pty_read_step s o).2.mem).current_byte
        = (pty_read_step s o).2.buffer.data.bytes_read := by
      refine hcb.trans ?_
      show (pty_read_step s o).2.buffer.data.bytes_read -
        ((pty_read_step s o).2.buffer.data.write - (pty_read_step s o).2.buffer.data.read) +
        ((pty_read_step s o).2.buffer.data.write - (pty_read_step s o).2.buffer.data.read) = _
      omega
    have hbr' : (read_parse_step s o).buffer.data.bytes_read =
        (pty_read_step s o).2.buffer.data.bytes_read := by
      show (parse_step (pty_read_step s o).2).buffer.data.bytes_read = _
      rw [hdata]
    rw [hbr', ← hcb']
    exact hexit.2

/-- Every state between rounds satisfies the round invariant. -/
theorem reachable_paired_inv (s : TermState) (hs : ReachablePaired s) :
    StateInv s ∧ s.buffer.data.read = s.buffer.data.write ∧
      LineInv s.buffer s.buffer.data.bytes_read := by
  induction hs with
  | create env size data h =>
    obtain ⟨_, hpos, start, rfl⟩ := data_buffer_create_ok h
    refine ⟨initial_state_inv h, rfl, ?_⟩
    unfold LineInv RingInv LINE_BUFFER_COUNT initial_state line_buffer_create
    simp
  | round s o _ ho ih => exact round_inv s o ih ho

/-- A state reached by rounds is reachable. -/
theorem reachable_of_paired (s : TermState) (hs : ReachablePaired s) : Reachable s := by
  induction hs with
  | create env size data h => exact Reachable.create env size data h
  | round s o _ ho ih => exact Reachable.parse _ (Reachable.read s o ih ho)

/-- C12: in every state reached from the fresh line index by repeating
`pty_read` followed by `parse_lines`, `current_line` is below 80, the line
count is at least 1, every record has `first_byte ≤ one_past_last_byte`, the
open record at `current_line` ends at `bytes_read`, and walking the ring
backward from `current_line` (the step of `draw_buffer`, from slot 0 to slot
79) over `min total_line_count 80` slots each record starts where the next
older record ends, so that offsets do not decrease from older to newer
records; and a line feed puts the new open record into the slot 79 steps
back from `current_line`, which holds the oldest record once 80 slots are in
use. -/
theorem line_ring_ordered (s : TermState) (hs : ReachablePaired s) :
    s.buffer.current_line < LINE_BUFFER_COUNT ∧ 1 ≤ s.buffer.total_line_count ∧
    (∀ i, (s.buffer.lines i).first_byte ≤ (s.buffer.lines i).one_past_last_byte) ∧
    (s.buffer.lines s.buffer.current_line).one_past_last_byte = s.buffer.data.bytes_read ∧
    (∀ j, j + 1 < min s.buffer.total_line_count LINE_BUFFER_COUNT →
      (s.buffer.lines (draw_previous^[j] s.buffer.current_line)).first_byte =
          (s.buffer.lines (draw_previous^[j + 1] s.buffer.current_line)).one_past_last_byte ∧
        (s.buffer.lines (draw_previous^[j + 1] s.buffer.current_line)).first_byte ≤
          (s.buffer.lines (draw_previous^[j] s.buffer.current_line)).first_byte ∧
        (s.buffer.lines (draw_previous^[j + 1] s.buffer.current_line)).one_past_last_byte ≤
          (s.buffer.lines (draw_previous^[j] s.buffer.current_line)).one_past_last_byte) ∧
    (∀ (mem : Memory) (st : ParseLoop), st.buffer = s.buffer → st.line = st.buffer.current_line →
      load mem st.buffer.data st.buffer.data.read = 10 →
      (parse_lines_body mem st).buffer.current_line =
          draw_previous^[LINE_BUFFER_COUNT - 1] s.buffer.current_line ∧
        (parse_lines_body mem st).buffer.lines (parse_lines_body mem st).buffer.current_line =
          { first_byte := st.current_byte + 1, one_past_last_byte := st.current_byte + 1 }) := by
  obtain ⟨_, _, hinv⟩ := reachable_paired_inv s hs
  unfold LineInv RingInv at hinv
  obtain ⟨hc80, hT, hcT, hle, hopen, hzero, hchain⟩ := hinv
  refine ⟨hc80, hT, hle, hopen, ?_, ?_⟩
  · intro j hj
    have hj80 : j + 1 < LINE_BUFFER_COUNT := lt_of_lt_of_le hj (min_le_right _ _)
    have hch := hchain j hj
    rw [draw_previous_iterate _ hc80, draw_previous_iterate _ hc80,
      Nat.mod_eq_of_lt (by omega : j < LINE_BUFFER_COUNT), Nat.mod_eq_of_lt hj80]
    have h1 := hle ((s.buffer.current_line + LINE_BUFFER_COUNT - j) % LINE_BUFFER_COUNT)
    have h2 := hle ((s.buffer.current_line + LINE_BUFFER_COUNT - (j + 1)) % LINE_BUFFER_COUNT)
    exact ⟨hch, by omega, by omega⟩
  · intro mem st hst hline hnl
    rw [draw_previous_iterate _ hc80]
    rw [← hst] at hc80 ⊢
    unfold LINE_BUFFER_COUNT at *
    unfold parse_lines_body LINE_BUFFER_COUNT
    simp only [hnl, if_true]
    split_ifs with h80
    · refine ⟨by omega, ?_⟩
      rw [Function.update_same]
    · refine ⟨by omega, ?_⟩
      rw [Function.update_same]

/-- The state after one round that ingested the three bytes `h`, line feed,
`i` is reached by rounds. -/
theorem round_state_reachable : ReachablePaired (parse_step fed_state) :=
  ReachablePaired.round (initial_state plain_buffer) (.bytes [104, 10, 105])
    (ReachablePaired.create (plain_env 65536) 4000 _ plain_buffer_created)
    (show [104, 10, 105].length ≤ pty_read_count (initial_state plain_buffer).buffer.data by
      decide)

/-- C12 at the state after the bytes `h`, line feed, `i` were ingested. -/
theorem line_ring_ordered_witness :
    (parse_step fed_state).buffer.current_line < LINE_BUFFER_COUNT ∧
    1 ≤ (parse_step fed_state).buffer.total_line_count :=
  ⟨(line_ring_ordered (parse_step fed_state) round_state_reachable).1,
    (line_ring_ordered (parse_step fed_state) round_state_reachable).2.1⟩

/-! ### The cursors stay inside the three mappings -/

/-- C11: in every reachable state, after a `pty_read` (whatever the `read`
delivers within the requested count) the cursors satisfy
`base ≤ read ≤ write < base + 2 * size`, and `wrap` is `base + 2 * size`; when
the `read` returned `n` bytes and `write + n` reached `wrap`, both cursors
are `size` lower, `read` was at least `base + size` before, and `write - read`
is what it was before the subtraction; and the bytes a `read` stores from
`write` on, at most the requested count, end at or below `base + 3 * size`. -/
theorem cursors_stay_mapped (s : TermState) (hs : Reachable s) :
    (∀ o : ReadOutcome, o.within (pty_read_count s.buffer.data) →
      (pty_read_step s o).2.buffer.data.base ≤ (pty_read_step s o).2.buffer.data.read ∧
      (pty_read_step s o).2.buffer.data.read ≤ (pty_read_step s o).2.buffer.data.write ∧
      (pty_read_step s o).2.buffer.data.write <
        (pty_read_step s o).2.buffer.data.base + 2 * (pty_read_step s o).2.buffer.data.size ∧
      (pty_read_step s o).2.buffer.data.wrap =
        (pty_read_step s o).2.buffer.data.base + 2 * (pty_read_step s o).2.buffer.data.size) ∧
    (∀ n : Nat, n ≤ pty_read_count s.buffer.data →
      s.buffer.data.write + n ≥ s.buffer.data.wrap →
      (pty_read s.buffer.data (n : Int)).2.read = s.buffer.data.read - s.buffer.data.size ∧
      (pty_read s.buffer.data (n : Int)).2.write =
        s.buffer.data.write + n - s.buffer.data.size ∧
      s.buffer.data.base + s.buffer.data.size ≤ s.buffer.data.read ∧
      (pty_read s.buffer.data (n : Int)).2.write - (pty_read s.buffer.data (n : Int)).2.read =
        (s.buffer.data.write + n) - s.buffer.data.read) ∧
    (s.buffer.data.base ≤ s.buffer.data.write ∧
      s.buffer.data.write + pty_read_count s.buffer.data ≤
        s.buffer.data.base + 3 * s.buffer.data.size) := by
  have hinv := reachable_inv s hs
  have hc := pty_read_count_le s.buffer.data
  obtain ⟨h0, hw, hb, hrw, hwl, hsz, hbr⟩ := hinv.1
  refine ⟨?_, ?_, ?_⟩
  · intro o ho
    obtain ⟨_, hw', hb', hrw', hwl', _, _⟩ := (pty_read_step_inv s o hinv ho).1
    exact ⟨hb', hrw', by omega, hw'⟩
  · intro n hn hwrap
    rw [pty_read_nat, if_pos hwrap]
    dsimp only
    omega
  · omega

/-- C11 at the fresh buffer of `run_terminal`. -/
theorem cursors_stay_mapped_witness :
    (initial_state plain_buffer).buffer.data.base ≤ (initial_state plain_buffer).buffer.data.write ∧
      (initial_state plain_buffer).buffer.data.write +
          pty_read_count (initial_state plain_buffer).buffer.data ≤
        (initial_state plain_buffer).buffer.data.base +
          3 * (initial_state plain_buffer).buffer.data.size :=
  (cursors_stay_mapped (initial_state plain_buffer) plain_state_reachable).2.2

/-! ### `draw_buffer` starts reading inside the mappings -/

/-- The write cursor is at least `min bytes_read size` above `base`. -/
theorem write_above_base (s : TermState) (hs : Reachable s) :
    min s.buffer.data.bytes_read s.buffer.data.size ≤
      s.buffer.data.write - s.buffer.data.base := by
  induction hs with
  | create env size data h =>
    obtain ⟨_, _, start, rfl⟩ := data_buffer_create_ok h
    simp [initial_state, line_buffer_create]
  | read s o hs ho ih =>
    have hinv := reachable_inv s hs
    obtain ⟨h0, hw, hb, hrw, hwl, hsz, hbr⟩ := hinv.1
    have hc := pty_read_count_le s.buffer.data
    show min (pty_read s.buffer.data o.ret).2.bytes_read (pty_read s.buffer.data o.ret).2.size ≤
      (pty_read s.buffer.data o.ret).2.write - (pty_read s.buffer.data o.ret).2.base
    cases o with
    | bytes stored =>
      simp only [ReadOutcome.ret, ReadOutcome.within] at ho ⊢
      rw [pty_read_nat]
      split_ifs with hwrap <;> dsimp only <;> omega
    | error =>
      simp only [ReadOutcome.ret]
      rw [pty_read_neg _ (-1) (by omega)]
      exact ih
  | parse s hs ih =>
    have hinv := reachable_inv s hs
    rw [parse_step_data s hinv.1.2.2.2.1]
    exact ih

/-- The reads `draw_buffer` makes for one record, with their addresses: it
starts at the address `write - min (bytes_read - first_byte) size` and reads
consecutive addresses for consecutive stream offsets. -/
theorem draw_line_reads_addr (mem : Memory) (data : RawDataBuffer) (env : DrawEnv)
    (line : TerminalLine) :
    ∃ n, n ≤ line.one_past_last_byte - max line.first_byte (data.bytes_read - data.size) ∧
      draw_line mem data env line =
        (List.range n).map (fun j =>
          (max line.first_byte (data.bytes_read - data.size) + j,
            data.write - min (data.bytes_read - line.first_byte) data.size + j)) := by
  unfold draw_line
  simp only
  split_ifs with hoff
  · obtain ⟨n, hn, hr⟩ := draw_line_loop_reads mem data env line.one_past_last_byte
      (line.one_past_last_byte - (data.bytes_read - data.size))
      { first_byte := data.bytes_read - data.size, byte_to_read := data.write - data.size,
        x_pos := 0, reads := [] }
    have hmax : max line.first_byte (data.bytes_read - data.size) =
        data.bytes_read - data.size := by omega
    have hmin : min (data.bytes_read - line.first_byte) data.size = data.size := by omega
    rw [hmax, hmin]
    exact ⟨n, hn, by simpa using hr⟩
  · obtain ⟨n, hn, hr⟩ := draw_line_loop_reads mem data env line.one_past_last_byte
      (line.one_past_last_byte - line.first_byte)
      { first_byte := line.first_byte,
        byte_to_read := data.write - (data.bytes_read - line.first_byte),
        x_pos := 0, reads := [] }
    have hmax : max line.first_byte (data.bytes_read - data.size) = line.first_byte := by omega
    have hmin : min (data.bytes_read - line.first_byte) data.size =
        data.bytes_read - line.first_byte := by omega
    rw [hmax, hmin]
    exact ⟨n, hn, by simpa using hr⟩

/-- C14: in every state reached by repeating `pty_read` followed by
`parse_lines`, `write - base` is at least `min bytes_read size`; hence for
every record with `first_byte ≤ one_past_last_byte ≤ bytes_read` the address
`write - min (bytes_read - first_byte) size` at which `draw_buffer` starts
reading is not below `base`, and every byte it reads for the record lies at
an address from that start on and below `write`. -/
theorem draw_reads_between_base_and_write (s : TermState) (hs : ReachablePaired s) :
    min s.buffer.data.bytes_read s.buffer.data.size ≤
        s.buffer.data.write - s.buffer.data.base ∧
    s.buffer.data.base ≤ s.buffer.data.write ∧
    ∀ (line : TerminalLine) (env : DrawEnv),
      line.first_byte ≤ line.one_past_last_byte →
      line.one_past_last_byte ≤ s.buffer.data.bytes_read →
      s.buffer.data.base ≤
          s.buffer.data.write - min (s.buffer.data.bytes_read - line.first_byte)
            s.buffer.data.size ∧
        ∀ r ∈ draw_line s.mem s.buffer.data env line,
          s.buffer.data.write - min (s.buffer.data.bytes_read - line.first_byte)
              s.buffer.data.size ≤ r.2 ∧
            r.2 < s.buffer.data.write := by
  have hr := reachable_of_paired s hs
  have hmin := write_above_base s hr
  obtain ⟨h0, hw, hb, hrw, hwl, hsz, hbr⟩ := (reachable_inv s hr).1
  refine ⟨hmin, by omega, ?_⟩
  intro line env hfl hlb
  refine ⟨by omega, ?_⟩
  intro r hmem
  obtain ⟨n, hn, hreads⟩ := draw_line_reads_addr s.mem s.buffer.data env line
  rw [hreads, List.mem_map] at hmem
  obtain ⟨j, hj, rfl⟩ := hmem
  rw [List.mem_range] at hj
  dsimp only
  omega

/-- C14 at the state after the bytes `h`, line feed, `i` were ingested. -/
theorem draw_reads_between_base_and_write_witness :
    min (parse_step fed_state).buffer.data.bytes_read (parse_step fed_state).buffer.data.size ≤
        (parse_step fed_state).buffer.data.write - (parse_step fed_state).buffer.data.base ∧
    (parse_step fed_state).buffer.data.base ≤ (parse_step fed_state).buffer.data.write :=
  ⟨(draw_reads_between_base_and_write (parse_step fed_state) round_state_reachable).1,
    (draw_reads_between_base_and_write (parse_step fed_state) round_state_reachable).2.1⟩

/-! ### `copy_string` and the overflow exit of `pty_open` -/

/-- The loop of `copy_string` on a source whose first zero byte is at index
`n`: started at `count ≤ min n len` it stops at `min (count + fuel) (min n len)`
and has copied the bytes in between. -/
theorem copy_string_loop_spec (src : Nat → Nat) (n len : Nat) (hn : src n = 0)
    (hnz : ∀ i, i < n → src i ≠ 0) :
    ∀ (fuel : Nat) (st : CopyLoop), st.count ≤ min n len →
      (copy_string_loop src len fuel st).count = min (st.count + fuel) (min n len) ∧
      ∀ i, (copy_string_loop src len fuel st).dst i =
        if st.count ≤ i ∧ i < min (st.count + fuel) (min n len) then src i else st.dst i := by
  intro fuel
  induction fuel with
  | zero =>
    intro st hst
    refine ⟨by simp [copy_string_loop]; omega, ?_⟩
    intro i
    have : ¬ (st.count ≤ i ∧ i < min (st.count + 0) (min n len)) := by omega
    rw [if_neg this]
    rfl
  | succ m ih =>
    intro st hst
    unfold copy_string_loop
    split_ifs with hc
    · have hlt : st.count < n := by
        rcases Nat.lt_or_ge st.count n with h | h
        · exact h
        · have : st.count = n := by omega
          rw [this] at hc
          exact absurd hn hc.1
      obtain ⟨h1, h2⟩ := ih ⟨st.count + 1, Function.update st.dst st.count (src st.count)⟩
        (by dsimp only; omega)
      dsimp only at h1 h2
      refine ⟨by rw [h1]; omega, ?_⟩
      intro i
      rw [h2 i, Function.update_apply]
      by_cases hi : i = st.count
      · rw [hi]
        have e1 : ¬ (st.count + 1 ≤ st.count ∧
            st.count < min (st.count + 1 + m) (min n len)) := by omega
        have e2 : st.count ≤ st.count ∧ st.count < min (st.count + (m + 1)) (min n len) := by
          omega
        rw [if_neg e1, if_pos rfl, if_pos e2]
      · rw [if_neg hi]
        by_cases hr : st.count + 1 ≤ i ∧ i < min (st.count + 1 + m) (min n len)
        · rw [if_pos hr, if_pos (by omega)]
        · rw [if_neg hr, if_neg (by omega)]
    · have hstop : st.count = min n len := by
        rcases Nat.lt_or_ge st.count n with h | h
        · have := hnz st.count h
          have : ¬ st.count < len := fun hl => hc ⟨this, hl⟩
          omega
        · omega
      refine ⟨by omega, ?_⟩
      intro i
      have : ¬ (st.count ≤ i ∧ i < min (st.count + (m + 1)) (min n len)) := by omega
      rw [if_neg this]

/-- What `copy_string` returns and leaves in `dst`, for a source whose first
zero byte is at index `n` (its `strlen`). -/
theorem copy_string_spec (src : Nat → Nat) (n : Nat) (hn : src n = 0)
    (hnz : ∀ i, i < n → src i ≠ 0) (dst : Nat → Nat) (len : Nat) :
    (copy_string dst src len).1 = min n len ∧
    ∀ i, (copy_string dst src len).2 i =
      if i < min n len then src i
      else if i = min n len ∧ min n len < len then 0
      else dst i := by
  obtain ⟨h1, h2⟩ := copy_string_loop_spec src n len hn hnz len { count := 0, dst := dst }
    (Nat.zero_le _)
  dsimp only at h1 h2
  have hcount : (copy_string_loop src len len { count := 0, dst := dst }).count = min n len := by
    rw [h1]
    omega
  refine ⟨hcount, ?_⟩
  intro i
  unfold copy_string
  simp only
  rw [hcount]
  have hdst : (copy_string_loop src len len { count := 0, dst := dst }).dst i =
      if i < min n len then src i else dst i := by
    rw [h2 i]
    by_cases hi : i < min n len
    · rw [if_pos (by omega), if_pos hi]
    · rw [if_neg (by omega), if_neg hi]
  by_cases hlt : min n len < len
  · rw [if_pos hlt, Function.update_apply]
    by_cases hi : i = min n len
    · rw [if_pos hi, if_neg (by omega), if_pos ⟨hi, hlt⟩]
    · rw [if_neg hi, hdst]
      by_cases hi2 : i < min n len
      · rw [if_pos hi2, if_pos hi2]
      · rw [if_neg hi2, if_neg hi2, if_neg (by omega)]
  · rw [if_neg hlt, hdst]
    by_cases hi2 : i < min n len
    · rw [if_pos hi2, if_pos hi2]
    · rw [if_neg hi2, if_neg hi2, if_neg (by omega)]

/-- C13: for every source string whose terminating zero byte is at index `n`
(its `strlen`) and every `len`, `copy_string` returns `min n len`, has copied
exactly that many bytes of `src` unchanged into `dst`, has written a zero
byte right after them exactly when the count is less than `len`, and has left
the rest of `dst` alone; therefore `pty_open`, once `posix_openpt`, `grantpt`,
`unlockpt` and `ptsname` have succeeded, takes its `EOVERFLOW` exit exactly
when `len ≤ strlen(path)`, that is when the path with its terminator does
not fit in `len` bytes. -/
theorem copy_string_count_and_overflow (src : Nat → Nat) (n : Nat) (hn : src n = 0)
    (hnz : ∀ i, i < n → src i ≠ 0) (dst : Nat → Nat) (len : Nat) :
    (copy_string dst src len).1 = min n len ∧
    (∀ i, i < min n len → (copy_string dst src len).2 i = src i) ∧
    (min n len < len → (copy_string dst src len).2 (min n len) = 0) ∧
    (min n len = len → ∀ i, len ≤ i → (copy_string dst src len).2 i = dst i) ∧
    (∀ i, min n len < i → (copy_string dst src len).2 i = dst i) ∧
    (∀ (env : PtyEnv) (name : Nat → Nat), env.posix_openpt ≠ -1 → env.grantpt ≠ -1 →
      env.unlockpt ≠ -1 → env.ptsname = some src →
      (pty_open env name len = .error .copy_string ↔ len ≤ n)) := by
  obtain ⟨hcount, hdst⟩ := copy_string_spec src n hn hnz dst len
  refine ⟨hcount, ?_, ?_, ?_, ?_, ?_⟩
  · intro i hi
    rw [hdst i, if_pos hi]
  · intro hlt
    rw [hdst, if_neg (by omega), if_pos ⟨rfl, hlt⟩]
  · intro heq i hi
    rw [hdst i, if_neg (by omega), if_neg (by omega)]
  · intro i hi
    rw [hdst i, if_neg (by omega), if_neg (by omega)]
  · intro env name h1 h2 h3 h4
    have hc := (copy_string_spec src n hn hnz name len).1
    unfold pty_open
    rw [if_neg h1, if_neg h2, if_neg h3, h4]
    dsimp only
    by_cases hl : (copy_string name src len).1 = len
    · rw [if_pos hl]
      constructor
      · intro _
        omega
      · intro _
        rfl
    · rw [if_neg hl]
      constructor
      · intro h
        exact Except.noConfusion h
      · intro h
        omega

/-- C13 for the path `/d` (two bytes and the terminator) and a buffer of
three bytes: the path fits and `copy_string` returns 2. -/
theorem copy_string_count_and_overflow_witness :
    (copy_string (fun _ => 255) (c_string [47, 100]) 3).1 = min 2 3 :=
  (copy_string_count_and_overflow (c_string [47, 100]) 2 rfl (by decide) (fun _ => 255) 3).1

/-! ### A burst larger than the buffer -/

/-- One round that ingests the bytes `B`: `bytes_read` grows by their number,
`total_line_count` by the number of line feeds among them, and the capacity
stays. -/
theorem round_counts (s : TermState) (B : List Nat)
    (h : StateInv s ∧ s.buffer.data.read = s.buffer.data.write ∧
      LineInv s.buffer s.buffer.data.bytes_read)
    (hB : B.length ≤ pty_read_count s.buffer.data) :
    (read_parse_step s (.bytes B)).buffer.data.bytes_read =
        s.buffer.data.bytes_read + B.length ∧
      (read_parse_step s (.bytes B)).buffer.total_line_count =
        s.buffer.total_line_count + B.count 10 ∧
      (read_parse_step s (.bytes B)).buffer.data.size = s.buffer.data.size := by
  obtain ⟨hs, hrw, _⟩ := h
  have hc := pty_read_count_le s.buffer.data
  have hB' : B.length ≤ s.buffer.data.size - (s.buffer.data.write - s.buffer.data.read) := by
    omega
  have hs1 : StateInv (pty_read_step s (.bytes B)).2 := pty_read_step_inv s (.bytes B) hs hB
  have hle := hs1.1.2.2.2.1
  have hdata := parse_step_data (pty_read_step s (.bytes B)).2 hle
  have hun : unread (pty_read_step s (.bytes B)).2 = B := by
    rw [unread_after_read s B hs.1 hB']
    unfold unread
    rw [hrw]
    simp
  have hbr : (pty_read_step s (.bytes B)).2.buffer.data.bytes_read =
      s.buffer.data.bytes_read + B.length ∧
      (pty_read_step s (.bytes B)).2.buffer.data.size = s.buffer.data.size := by
    show (pty_read s.buffer.data (B.length : Int)).2.bytes_read = _ ∧
      (pty_read s.buffer.data (B.length : Int)).2.size = _
    rw [pty_read_nat]
    split_ifs <;> exact ⟨rfl, rfl⟩
  have htot := (parse_lines_loop_spec (pty_read_step s (.bytes B)).2.mem _
    (parse_lines_entry (pty_read_step s (.bytes B)).2.buffer) hle (le_refl _)).2.2.1
  refine ⟨?_, ?_, ?_⟩
  · show (parse_step (pty_read_step s (.bytes B)).2).buffer.data.bytes_read = _
    rw [hdata]
    exact hbr.1
  · refine htot.trans ?_
    show s.buffer.total_line_count + List.count 10 (unread (pty_read_step s (.bytes B)).2) = _
    rw [hun]
  · show (parse_step (pty_read_step s (.bytes B)).2).buffer.data.size = _
    rw [hdata]
    exact hbr.2

/-- What the ingestion of chunks of bytes, each no longer than a `read` may
deliver into the empty buffer, does to the counters; the round invariant
holds afterwards. -/
theorem feed_counts (chunks : List (List Nat)) :
    ∀ (s : TermState),
      (StateInv s ∧ s.buffer.data.read = s.buffer.data.write ∧
        LineInv s.buffer s.buffer.data.bytes_read) →
      (∀ B ∈ chunks, B.length ≤ minull s.buffer.data.size SSIZE_MAX) →
      (StateInv (feed s chunks) ∧
        (feed s chunks).buffer.data.read = (feed s chunks).buffer.data.write ∧
        LineInv (feed s chunks).buffer (feed s chunks).buffer.data.bytes_read) ∧
      (feed s chunks).buffer.data.bytes_read = s.buffer.data.bytes_read + chunks.flatten.length ∧
      (feed s chunks).buffer.total_line_count =
        s.buffer.total_line_count + chunks.flatten.count 10 := by
  induction chunks with
  | nil =>
    intro s h _
    exact ⟨h, by simp [feed], by simp [feed]⟩
  | cons B rest ih =>
    intro s h hfit
    have hcount : pty_read_count s.buffer.data = minull s.buffer.data.size SSIZE_MAX := by
      unfold pty_read_count
      rw [h.2.1]
      simp
    have hB : B.length ≤ pty_read_count s.buffer.data := by
      rw [hcount]
      exact hfit B (List.mem_cons_self _ _)
    have hinv := round_inv s (.bytes B) h hB
    obtain ⟨h1, h2, h3⟩ := round_counts s B h hB
    obtain ⟨g1, g2, g3⟩ := ih (read_parse_step s (.bytes B)) hinv (by
      intro B' hB'
      rw [h3]
      exact hfit B' (List.mem_cons_of_mem _ hB'))
    have hfeed : feed s (B :: rest) = feed (read_parse_step s (.bytes B)) rest := rfl
    rw [hfeed]
    refine ⟨g1, ?_, ?_⟩
    · rw [g2, h1]
      simp only [List.flatten_cons, List.length_append]
      omega
    · rw [g3, h2]
      simp only [List.flatten_cons, List.count_append]
      omega

/-- The index after a text with exactly 10 line feeds was ingested into the
fresh buffer of capacity 4096 in chunks a `read` may deliver. -/
theorem burst_index (env : SysEnv) (size : Nat) (data : RawDataBuffer)
    (hcreate : data_buffer_create env size = .ok data) (hcap : data.size = 4096)
    (chunks : List (List Nat)) (hfit : ∀ B ∈ chunks, B.length ≤ 4096)
    (hlf : chunks.flatten.count 10 = 10) :
    (feed (initial_state data) chunks).buffer.total_line_count = 11 ∧
    (feed (initial_state data) chunks).buffer.data.bytes_read = chunks.flatten.length ∧
    RingInv (feed (initial_state data) chunks).buffer.lines 10 11 chunks.flatten.length := by
  have h0 := reachable_paired_inv (initial_state data)
    (ReachablePaired.create env size data hcreate)
  have hmin : minull (initial_state data).buffer.data.size SSIZE_MAX = 4096 := by
    show minull data.size SSIZE_MAX = 4096
    rw [hcap]
    decide
  obtain ⟨⟨_, _, hinv⟩, hbr, htot⟩ := feed_counts chunks (initial_state data) h0 (by
    intro B hB
    rw [hmin]
    exact hfit B hB)
  have hbr' : (feed (initial_state data) chunks).buffer.data.bytes_read =
      chunks.flatten.length := by
    have hz : (initial_state data).buffer.data.bytes_read = 0 := by
      obtain ⟨_, _, start, h⟩ := data_buffer_create_ok hcreate
      show data.bytes_read = 0
      rw [h]
    rw [hbr, hz]
    omega
  have htot' : (feed (initial_state data) chunks).buffer.total_line_count = 11 := by
    rw [htot, hlf]
    rfl
  refine ⟨htot', hbr', ?_⟩
  unfold LineInv at hinv
  have hcur : (feed (initial_state data) chunks).buffer.current_line = 10 := by
    have := hinv.2.2.1
    rw [htot'] at this
    rw [this]
    rfl
  rw [htot', hbr', hcur] at hinv
  exact hinv

/-- C8, as the code has it: with capacity 4096 and a freshly started terminal,
after a 5000-byte text with exactly 10 line feeds has been ingested by
`pty_read` followed by `parse_lines`, in whatever chunks of at most 4096
bytes the reads deliver it, `total_line_count` is 11 whether or not the text
ends with a line feed, `current_line` is 10, `bytes_read` is 5000, and the
records 0 to 10 hold consecutive ranges starting at 0 whose lengths sum to
5000, the open record 10 ending at offset 5000. -/
theorem burst_of_5000_bytes (env : SysEnv) (size : Nat) (data : RawDataBuffer)
    (hcreate : data_buffer_create env size = .ok data) (hcap : data.size = 4096)
    (chunks : List (List Nat)) (hfit : ∀ B ∈ chunks, B.length ≤ 4096)
    (hlen : chunks.flatten.length = 5000) (hlf : chunks.flatten.count 10 = 10) :
    (feed (initial_state data) chunks).buffer.total_line_count = 11 ∧
    (feed (initial_state data) chunks).buffer.current_line = 10 ∧
    (feed (initial_state data) chunks).buffer.data.bytes_read = 5000 ∧
    ((feed (initial_state data) chunks).buffer.lines 0).first_byte = 0 ∧
    (∀ i, i < 10 →
      ((feed (initial_state data) chunks).buffer.lines (i + 1)).first_byte =
        ((feed (initial_state data) chunks).buffer.lines i).one_past_last_byte) ∧
    (∀ i, ((feed (initial_state data) chunks).buffer.lines i).first_byte ≤
      ((feed (initial_state data) chunks).buffer.lines i).one_past_last_byte) ∧
    ((feed (initial_state data) chunks).buffer.lines 10).one_past_last_byte = 5000 ∧
    ((List.range 11).map (fun i =>
      ((feed (initial_state data) chunks).buffer.lines i).one_past_last_byte -
        ((feed (initial_state data) chunks).buffer.lines i).first_byte)).sum = 5000 := by
  obtain ⟨htot, hbr, hring⟩ := burst_index env size data hcreate hcap chunks hfit hlf
  have hcur : (feed (initial_state data) chunks).buffer.current_line = 10 := by
    have h0 := reachable_paired_inv (initial_state data)
      (ReachablePaired.create env size data hcreate)
    have hmin : minull (initial_state data).buffer.data.size SSIZE_MAX = 4096 := by
      show minull data.size SSIZE_MAX = 4096
      rw [hcap]
      decide
    obtain ⟨⟨_, _, hinv⟩, _, _⟩ := feed_counts chunks (initial_state data) h0 (by
      intro B hB
      rw [hmin]
      exact hfit B hB)
    have := hinv.2.2.1
    rw [htot] at this
    rw [this]
    rfl
  rw [hlen] at hbr hring
  unfold RingInv LINE_BUFFER_COUNT at hring
  obtain ⟨_, _, _, hle, hopen, hzero, hchain⟩ := hring
  have hz := hzero (by omega)
  have hstep : ∀ i, i < 10 →
      ((feed (initial_state data) chunks).buffer.lines (i + 1)).first_byte =
        ((feed (initial_state data) chunks).buffer.lines i).one_past_last_byte := by
    intro i hi
    have := hchain (9 - i) (by omega)
    rw [show (10 + 80 - (9 - i)) % 80 = i + 1 by omega,
      show (10 + 80 - (9 - i + 1)) % 80 = i by omega] at this
    exact this
  refine ⟨htot, hcur, hbr, hz, hstep, hle, hopen, ?_⟩
  have hrange : List.range 11 = [0, 1, 2, 3, 4, 5, 6, 7, 8, 9, 10] := by decide
  rw [hrange]
  simp only [List.map_cons, List.map_nil, List.sum_cons, List.sum_nil]
  have c0 := hstep 0 (by omega)
  have c1 := hstep 1 (by omega)
  have c2 := hstep 2 (by omega)
  have c3 := hstep 3 (by omega)
  have c4 := hstep 4 (by omega)
  have c5 := hstep 5 (by omega)
  have c6 := hstep 6 (by omega)
  have c7 := hstep 7 (by omega)
  have c8 := hstep 8 (by omega)
  have c9 := hstep 9 (by omega)
  have l0 := hle 0
  have l1 := hle 1
  have l2 := hle 2
  have l3 := hle 3
  have l4 := hle 4
  have l5 := hle 5
  have l6 := hle 6
  have l7 := hle 7
  have l8 := hle 8
  have l9 := hle 9
  have l10 := hle 10
  simp only [Nat.zero_add, Nat.reduceAdd] at c0 c1 c2 c3 c4 c5 c6 c7 c8 c9
  omega

theorem burst_ending_in_line_feed_shape :
    burst_ending_in_line_feed.flatten.length = 5000 ∧
    burst_ending_in_line_feed.flatten.count 10 = 10 ∧
    (∀ B ∈ burst_ending_in_line_feed, B.length ≤ 4096) ∧
    burst_ending_in_line_feed.flatten =
      (List.replicate 4096 97 ++ List.replicate 894 97 ++ List.replicate 9 10) ++ [10] := by
  refine ⟨?_, ?_, ?_, ?_⟩
  · simp only [burst_ending_in_line_feed, List.flatten_cons, List.flatten_nil, List.append_nil,
      List.length_append, List.length_replicate]
  · simp only [burst_ending_in_line_feed, List.flatten_cons, List.flatten_nil, List.append_nil,
      List.count_append, List.count_replicate]
    decide
  · intro B hB
    simp only [burst_ending_in_line_feed, List.mem_cons, List.mem_singleton,
      List.not_mem_nil, or_false] at hB
    rcases hB with rfl | rfl <;>
      simp only [List.length_append, List.length_replicate] <;> omega
  · have h10 : List.replicate 10 10 = List.replicate 9 10 ++ [10] :=
      List.replicate_succ' 9 10
    simp only [burst_ending_in_line_feed, List.flatten_cons, List.flatten_nil,
      List.append_nil, h10, List.append_assoc]

theorem burst_with_open_line_shape :
    burst_with_open_line.flatten.length = 5000 ∧
    burst_with_open_line.flatten.count 10 = 10 ∧
    (∀ B ∈ burst_with_open_line, B.length ≤ 4096) := by
  refine ⟨?_, ?_, ?_⟩
  · simp only [burst_with_open_line, List.flatten_cons, List.flatten_nil, List.append_nil,
      List.length_append, List.length_replicate]
  · simp only [burst_with_open_line, List.flatten_cons, List.flatten_nil, List.append_nil,
      List.count_append, List.count_replicate]
    decide
  · intro B hB
    simp only [burst_with_open_line, List.mem_cons, List.mem_singleton,
      List.not_mem_nil, or_false] at hB
    rcases hB with rfl | rfl <;>
      simp only [List.length_append, List.length_replicate] <;> omega

/-- C8 as stated fails: the text of `burst_ending_in_line_feed` has 5000
bytes, exactly 10 line feeds and ends with a line feed, it is ingested into
the fresh buffer of capacity 4096 in chunks of 4096 and 904 bytes, and
`total_line_count` is then 11, not 10. -/
theorem burst_ending_in_line_feed_counts_eleven :
    burst_ending_in_line_feed.flatten.length = 5000 ∧
    burst_ending_in_line_feed.flatten.count 10 = 10 ∧
    burst_ending_in_line_feed.flatten =
      (List.replicate 4096 97 ++ List.replicate 894 97 ++ List.replicate 9 10) ++ [10] ∧
    plain_buffer.size = 4096 ∧
    (feed (initial_state plain_buffer) burst_ending_in_line_feed).buffer.total_line_count = 11 ∧
    (feed (initial_state plain_buffer) burst_ending_in_line_feed).buffer.total_line_count ≠ 10 := by
  obtain ⟨h1, h2, h3, h4⟩ := burst_ending_in_line_feed_shape
  have h := (burst_index (plain_env 65536) 4000 plain_buffer plain_buffer_created rfl
    burst_ending_in_line_feed h3 h2).1
  refine ⟨h1, h2, h4, rfl, h, ?_⟩
  rw [h]
  decide

/-- C8 (as amended) at a text with a trailing partial line. -/
theorem burst_of_5000_bytes_witness :
    (feed (initial_state plain_buffer) burst_with_open_line).buffer.total_line_count = 11 ∧
    ((feed (initial_state plain_buffer) burst_with_open_line).buffer.lines
      10).one_past_last_byte = 5000 :=
  ⟨(burst_of_5000_bytes (plain_env 65536) 4000 plain_buffer plain_buffer_created rfl
      burst_with_open_line burst_with_open_line_shape.2.2 burst_with_open_line_shape.1
      burst_with_open_line_shape.2.1).1,
    (burst_of_5000_bytes (plain_env 65536) 4000 plain_buffer plain_buffer_created rfl
      burst_with_open_line burst_with_open_line_shape.2.2 burst_with_open_line_shape.1
      burst_with_open_line_shape.2.1).2.2.2.2.2.2.1⟩

/-! ### The buffer holds the last `size` bytes of the stream -/

/-- A state reached with a stream is reachable. -/
theorem reachable_of_stream (s : TermState) (stream : List Nat)
    (hs : ReachableStream s stream) : Reachable s := by
  induction hs with
  | create env size data h => exact Reachable.create env size data h
  | read s stream o _ ho ih => exact Reachable.read s o ih ho
  | parse s stream _ ih => exact Reachable.parse s ih

/-- Every reachable state is reached with some stream. -/
theorem reachable_has_stream (s : TermState) (hs : Reachable s) :
    ∃ stream, ReachableStream s stream := by
  induction hs with
  | create env size data h => exact ⟨[], ReachableStream.create env size data h⟩
  | read s o _ ho ih =>
    obtain ⟨stream, hst⟩ := ih
    exact ⟨stream ++ o.delivered, ReachableStream.read s stream o hst ho⟩
  | parse s _ ih =>
    obtain ⟨stream, hst⟩ := ih
    exact ⟨stream, ReachableStream.parse s stream hst⟩

/-- A `read` keeps the window: the bytes it stores are found below the new
`write`, and of the bytes before them the last `size - n` are not
overwritten. -/
theorem window_after_read (s : TermState) (stream B : List Nat) (hd : BufferInv s.buffer.data)
    (hmin : min s.buffer.data.bytes_read s.buffer.data.size ≤
      s.buffer.data.write - s.buffer.data.base)
    (hwin : WindowInv s stream) :
    WindowInv (pty_read_step s (.bytes B)).2 (stream ++ B) := by
  obtain ⟨h0, hw, hb, hrw, hwl, hsz, hbr⟩ := hd
  obtain ⟨hlen, hload⟩ := hwin
  have hbr' : (pty_read_step s (.bytes B)).2.buffer.data.bytes_read =
      s.buffer.data.bytes_read + B.length := by
    show (pty_read s.buffer.data (B.length : Int)).2.bytes_read = _
    rw [pty_read_nat]
    split_ifs <;> rfl
  have hsize : (pty_read_step s (.bytes B)).2.buffer.data.size = s.buffer.data.size := by
    show (pty_read s.buffer.data (B.length : Int)).2.size = _
    rw [pty_read_nat]
    split_ifs <;> rfl
  refine ⟨by rw [hbr', List.length_append, hlen], ?_⟩
  intro o ho hdist
  rw [hbr'] at ho hdist
  rw [hsize] at hdist
  -- the address in the coordinates before the cursors were moved
  have haddr : load (pty_read_step s (.bytes B)).2.mem (pty_read_step s (.bytes B)).2.buffer.data
      (stream_addr (pty_read_step s (.bytes B)).2.buffer.data o) =
      store_bytes s.mem s.buffer.data s.buffer.data.write B
        (phys s.buffer.data
          (s.buffer.data.write + B.length - (s.buffer.data.bytes_read + B.length - o))) := by
    show load (store_bytes s.mem s.buffer.data s.buffer.data.write B)
      (pty_read s.buffer.data (B.length : Int)).2
      (stream_addr (pty_read s.buffer.data (B.length : Int)).2 o) = _
    rw [pty_read_nat]
    split_ifs with hwrap
    · simp only [load, phys, stream_addr]
      rw [show s.buffer.data.write + B.length - s.buffer.data.size -
          (s.buffer.data.bytes_read + B.length - o) =
        s.buffer.data.write + B.length - (s.buffer.data.bytes_read + B.length - o) -
          s.buffer.data.size by omega]
      rw [phys_sub_size s.buffer.data _ (by omega)]
      rfl
    · rfl
  rw [haddr]
  by_cases hnew : s.buffer.data.bytes_read ≤ o
  · -- a byte this `read` stored
    have hidx : s.buffer.data.write + B.length - (s.buffer.data.bytes_read + B.length - o) =
        s.buffer.data.write + (o - s.buffer.data.bytes_read) := by omega
    have hi : o - s.buffer.data.bytes_read < B.length := by omega
    rw [hidx, store_bytes_at s.buffer.data B s.buffer.data.write s.mem _ hi (by
      intro j hj1 hj2
      exact (phys_ne s.buffer.data (s.buffer.data.write + (o - s.buffer.data.bytes_read))
        (s.buffer.data.write + j) (by omega) (by omega) (by omega)).symm)]
    rw [List.getD_eq_getElem?_getD, List.getElem?_append_right (by omega), hlen,
      List.getElem?_eq_getElem hi]
    rfl
  · -- an older byte, left alone by this `read`
    have hidx : s.buffer.data.write + B.length - (s.buffer.data.bytes_read + B.length - o) =
        stream_addr s.buffer.data o := by
      unfold stream_addr
      omega
    rw [hidx]
    have hother := store_bytes_other s.buffer.data B s.buffer.data.write s.mem
      (phys s.buffer.data (stream_addr s.buffer.data o)) (by
        intro j hj
        unfold stream_addr
        exact (phys_ne s.buffer.data (s.buffer.data.write - (s.buffer.data.bytes_read - o))
          (s.buffer.data.write + j) (by omega) (by omega) (by omega)).symm)
    rw [hother]
    have hold := hload o (by omega) (by omega)
    unfold load at hold
    rw [hold, List.getD_eq_getElem?_getD, List.getD_eq_getElem?_getD,
      List.getElem?_append_left (by omega)]

/-- In every state reached with a stream, the buffer holds the last `size`
bytes of that stream. -/
theorem reachable_window (s : TermState) (stream : List Nat)
    (hs : ReachableStream s stream) : WindowInv s stream := by
  induction hs with
  | create env size data h =>
    obtain ⟨_, _, start, rfl⟩ := data_buffer_create_ok h
    refine ⟨rfl, ?_⟩
    intro o ho
    exact absurd ho (Nat.not_lt_zero o)
  | read s stream o hs ho ih =>
    have hr := reachable_of_stream s stream hs
    cases o with
    | bytes B =>
      exact window_after_read s stream B (reachable_inv s hr).1 (write_above_base s hr) ih
    | error =>
      have hsame : (pty_read_step s ReadOutcome.error).2 = s := by
        unfold pty_read_step
        simp only [ReadOutcome.ret, ReadOutcome.store]
        rw [pty_read_neg _ (-1) (by omega)]
      rw [hsame]
      simpa [ReadOutcome.delivered] using ih
  | parse s stream hs ih =>
    have hr := reachable_of_stream s stream hs
    have hd := parse_step_data s (reachable_inv s hr).1.2.2.2.1
    obtain ⟨hlen, hload⟩ := ih
    refine ⟨?_, ?_⟩
    · rw [hd]
      exact hlen
    · intro o ho hdist
      rw [hd] at ho hdist
      have := hload o ho hdist
      rw [← this]
      show load s.mem (parse_step s).buffer.data (stream_addr (parse_step s).buffer.data o) = _
      rw [hd]
      rfl

/-- The walk of `draw_buffer` after the bytes `h`, line feed, `i` were read
and indexed, for a window 640 wide, a font advance of 8 and 25 rows: the open
record in slot 1 gives offset 2 at address 65538, then the record in slot 0
gives offsets 0 and 1 at the addresses 65536 and 65537. -/
theorem draw_buffer_fed_state_drawn :
    (draw_buffer (parse_step fed_state) { width := 640, max_advance_width := 8 } 25).drawn =
      [⟨1, [(2, 65538)]⟩, ⟨0, [(0, 65536), (1, 65537)]⟩] := by
  rfl

/-- The state after the bytes `h`, line feed, `i` were read and indexed has
ingested exactly these three bytes. -/
theorem fed_state_stream : ReachableStream (parse_step fed_state) [104, 10, 105] :=
  ReachableStream.parse fed_state [104, 10, 105]
    (ReachableStream.read (initial_state plain_buffer) [] (.bytes [104, 10, 105])
      (ReachableStream.create (plain_env 65536) 4000 _ plain_buffer_created)
      (show [104, 10, 105].length ≤ pty_read_count (initial_state plain_buffer).buffer.data by
        decide))

/-- C6: in every reachable state, for every window width, font advance and row
count, `draw_buffer` walks the ring backward from `current_line`; it stops at
the first record whose `one_past_last_byte` is `size` or more bytes behind
`bytes_read` and draws no such record; for every record it draws, the stream
offsets it reads are consecutive from `max first_byte (bytes_read - size)`,
stay below `one_past_last_byte`, and lie in `[bytes_read - size, bytes_read)`;
and the address it dereferences for the stream offset `o` is
`write - (bytes_read - o)`, between `base` and `write`, where the buffer
holds the byte of the ingested stream with offset `o`: no byte older than
`bytes_read - size` is read. -/
theorem draw_buffer_reads_in_window (s : TermState) (hs : Reachable s) (env : DrawEnv)
    (rows : Nat) :
    (∀ k, (draw_buffer s env rows).stopped = some k →
      k = draw_previous^[(draw_buffer s env rows).drawn.length] s.buffer.current_line ∧
        s.buffer.data.bytes_read - (s.buffer.lines k).one_past_last_byte ≥
          s.buffer.data.size) ∧
    ((draw_buffer s env rows).drawn.map DrawnLine.slot =
      (List.range (draw_buffer s env rows).drawn.length).map
        (fun i => draw_previous^[i] s.buffer.current_line)) ∧
    (∀ dl ∈ (draw_buffer s env rows).drawn,
      s.buffer.data.bytes_read - (s.buffer.lines dl.slot).one_past_last_byte <
          s.buffer.data.size ∧
        dl.reads.map Prod.fst =
          List.range' (max (s.buffer.lines dl.slot).first_byte
            (s.buffer.data.bytes_read - s.buffer.data.size)) dl.reads.length ∧
        ∀ r ∈ dl.reads,
          max (s.buffer.lines dl.slot).first_byte
              (s.buffer.data.bytes_read - s.buffer.data.size) ≤ r.1 ∧
            s.buffer.data.bytes_read - s.buffer.data.size ≤ r.1 ∧
            r.1 < (s.buffer.lines dl.slot).one_past_last_byte ∧
            r.1 < s.buffer.data.bytes_read) ∧
    (∀ dl ∈ (draw_buffer s env rows).drawn, ∀ r ∈ dl.reads,
      r.2 = stream_addr s.buffer.data r.1 ∧
        s.buffer.data.base ≤ r.2 ∧ r.2 < s.buffer.data.write ∧
        ∀ stream, ReachableStream s stream →
          load s.mem s.buffer.data r.2 = stream.getD r.1 0) := by
  obtain ⟨hb, hl⟩ := reachable_inv s hs
  have hmin := write_above_base s hs
  obtain ⟨h1, h2, h3, _⟩ := draw_buffer_loop_spec s.mem s.buffer env
    (draw_line_count s.buffer rows) s.buffer.current_line
  refine ⟨?_, h1, ?_, ?_⟩
  · intro k hk
    obtain ⟨hk1, hk2⟩ := h3 k hk
    exact ⟨hk1, by simpa [draw_skips] using hk2⟩
  · intro dl hdl
    obtain ⟨hskip, hreads⟩ := h2 dl hdl
    obtain ⟨hr1, hr2⟩ := draw_line_reads s.mem s.buffer.data env (s.buffer.lines dl.slot)
    have hopl := hl dl.slot
    unfold parsed_offset at hopl
    refine ⟨by simpa [draw_skips] using hskip, ?_, ?_⟩
    · rw [hreads]
      exact hr1
    · intro r hr
      rw [hreads] at hr
      obtain ⟨ha, hb'⟩ := hr2 r hr
      omega
  · intro dl hdl r hr
    obtain ⟨_, hreads⟩ := h2 dl hdl
    rw [hreads] at hr
    obtain ⟨n, hn, hlist⟩ := draw_line_reads_addr s.mem s.buffer.data env (s.buffer.lines dl.slot)
    rw [hlist, List.mem_map] at hr
    obtain ⟨j, hj, rfl⟩ := hr
    rw [List.mem_range] at hj
    have hopl := hl dl.slot
    unfold parsed_offset at hopl
    obtain ⟨h0, hw, hbase, hrw, hwl, hsz, hbr⟩ := hb
    have haddr : s.buffer.data.write -
          min (s.buffer.data.bytes_read - (s.buffer.lines dl.slot).first_byte)
            s.buffer.data.size + j =
        stream_addr s.buffer.data
          (max (s.buffer.lines dl.slot).first_byte
            (s.buffer.data.bytes_read - s.buffer.data.size) + j) := by
      unfold stream_addr
      omega
    dsimp only
    rw [haddr]
    refine ⟨rfl, ?_, ?_, ?_⟩
    · unfold stream_addr
      omega
    · unfold stream_addr
      omega
    · intro stream hst
      exact (reachable_window s stream hst).2 _ (by omega) (by omega)

/-- C6 at the state after the bytes `h`, line feed, `i` were read and indexed,
for a window 640 wide, a font advance of 8 and 25 rows: the slots drawn are
those of the backward walk, and the read of the open record at stream offset 2
dereferences the address 65538, which is `write - (bytes_read - 2)`, lies
between `base` and `write`, and holds the byte `i` of the stream. -/
theorem draw_buffer_reads_in_window_witness :
    ((draw_buffer (parse_step fed_state) { width := 640, max_advance_width := 8 } 25).drawn.map
        DrawnLine.slot =
      (List.range (draw_buffer (parse_step fed_state)
        { width := 640, max_advance_width := 8 } 25).drawn.length).map
          (fun i => draw_previous^[i] (parse_step fed_state).buffer.current_line)) ∧
    (65538 = stream_addr (parse_step fed_state).buffer.data 2 ∧
      (parse_step fed_state).buffer.data.base ≤ 65538 ∧
      65538 < (parse_step fed_state).buffer.data.write ∧
      load (parse_step fed_state).mem (parse_step fed_state).buffer.data 65538 = 105) :=
  have h := draw_buffer_reads_in_window (parse_step fed_state)
    (Reachable.parse fed_state fed_state_reachable) { width := 640, max_advance_width := 8 } 25
  have hr := h.2.2.2 ⟨1, [(2, 65538)]⟩
    (by rw [draw_buffer_fed_state_drawn]; exact List.mem_cons_self _ _)
    (2, 65538) (List.mem_singleton.mpr rfl)
  ⟨h.2.1, hr.1, hr.2.1, hr.2.2.1, hr.2.2.2 [104, 10, 105] fed_state_stream⟩

end Nullrefterm
